import Mathlib

/-!
# Verification of the openrank-tee compute/verification engine

A shallow embedding of the core of the repository:
the keccak256-based dense Merkle tree library (`src/common/src/merkle/`),
the trust/seed model and EigenTrust-style algorithms (`src/common/src/algos/et.rs`,
`sr.rs`, `OutboundLocalTrust` from `src/common/src/runners/mod.rs`),
the verification runner (`src/common/src/runners/verification_runner.rs`),
and the challenger result handler (`src/app/src/challenger.rs`).

Machine floats (`f32`) are modelled by exact rationals: every claim treated here
is about the branching and algebraic structure of the code, not about rounding.
Machine integers are modelled by `Nat` (no claim exercises wrap-around).
-/

set_option maxRecDepth 1000000

set_option maxHeartbeats 2000000

namespace OpenrankTee

/-- A byte string; each element is a byte value below 256. -/
abbrev Bytes := List Nat

/-! ## keccak256 (the `sha3::Keccak256` hasher used throughout the repository)

Lanes are 64-bit words stored as `Nat` kept below `2 ^ 64` by masking.
State is the flat 25-lane list, lane `(x, y)` at position `x + 5 * y`. -/

namespace Keccak

def mask64 : Nat := 2 ^ 64 - 1

/-- xor of two 64-bit lanes. -/
def xor64 (a b : Nat) : Nat := Nat.xor a b

/-- Left rotation of a 64-bit lane by `n` bits (`0 ≤ n < 64`). -/
def rotl64 (x n : Nat) : Nat :=
  Nat.land (Nat.lor (Nat.shiftLeft x n) (Nat.shiftRight x (64 - n))) mask64

/-- The ρ rotation offsets, indexed by lane position `x + 5 * y`. -/
def rhoOffsets : List Nat :=
  [0, 1, 62, 28, 27] ++ [36, 44, 6, 55, 20] ++ [3, 10, 43, 25, 39]
    ++ [41, 45, 15, 21, 8] ++ [18, 2, 61, 56, 14]

/-- The 24 keccak-f[1600] round constants. -/
def roundConstants : List Nat :=
  [0x1, 0x8082, 0x800000000000808a, 0x8000000080008000]
    ++ [0x808b, 0x80000001, 0x8000000080008081, 0x8000000000008009]
    ++ [0x8a, 0x88, 0x80008009, 0x8000000a]
    ++ [0x8000808b, 0x800000000000008b, 0x8000000000008089, 0x8000000000008003]
    ++ [0x8000000000008002, 0x8000000000000080, 0x800a, 0x800000008000000a]
    ++ [0x8000000080008081, 0x8000000000008080, 0x80000001, 0x8000000080008008]

/-- The θ step. -/
def theta (s : List Nat) : List Nat :=
  let c := (List.range 5).map fun x =>
    xor64 (s.getD x 0) (xor64 (s.getD (x + 5) 0)
      (xor64 (s.getD (x + 10) 0) (xor64 (s.getD (x + 15) 0) (s.getD (x + 20) 0))))
  let d := (List.range 5).map fun x =>
    xor64 (c.getD ((x + 4) % 5) 0) (rotl64 (c.getD ((x + 1) % 5) 0) 1)
  (List.range 25).map fun i => xor64 (s.getD i 0) (d.getD (i % 5) 0)

/-- The combined ρ and π steps.  Destination lane `(X, Y)` receives the rotated
source lane `(X + 3Y mod 5, X)`. -/
def rhoPi (s : List Nat) : List Nat :=
  (List.range 25).map fun j =>
    let bigX := j % 5
    let bigY := j / 5
    let src := (bigX + 3 * bigY) % 5 + 5 * bigX
    rotl64 (s.getD src 0) (rhoOffsets.getD src 0)

/-- The χ step. -/
def chi (s : List Nat) : List Nat :=
  (List.range 25).map fun i =>
    let x := i % 5
    let y := i / 5
    xor64 (s.getD i 0)
      (Nat.land (Nat.xor (s.getD ((x + 1) % 5 + 5 * y) 0) mask64)
        (s.getD ((x + 2) % 5 + 5 * y) 0))

/-- One keccak-f round: θ, ρ, π, χ, then ι (xor of the round constant into lane 0). -/
def keccakRound (s : List Nat) (rc : Nat) : List Nat :=
  match chi (rhoPi (theta s)) with
  | [] => []
  | a :: rest => xor64 a rc :: rest

/-- The full 24-round keccak-f[1600] permutation. -/
def keccakF (s : List Nat) : List Nat :=
  roundConstants.foldl keccakRound s

/-- Original keccak multi-rate padding (`0x01 … 0x80`), as used by `sha3::Keccak256`. -/
def pad101 (input : Bytes) (rate : Nat) : Bytes :=
  let padTotal := rate - input.length % rate
  if padTotal = 1 then input ++ [0x81]
  else input ++ 0x01 :: (List.replicate (padTotal - 2) 0 ++ [0x80])

/-- Read one 136-byte rate block into 17 little-endian 64-bit lanes. -/
def bytesToLanes (block : Bytes) : List Nat :=
  (List.range 17).map fun w =>
    (List.range 8).foldl (fun acc b => acc + block.getD (8 * w + b) 0 * 2 ^ (8 * b)) 0

/-- Absorb a list of rate blocks into the sponge state. -/
def absorbBlocks : List Nat → List Bytes → List Nat
  | s, [] => s
  | s, blk :: rest =>
      let lanes := bytesToLanes blk
      let s1 := (List.range 25).map fun i =>
        if i < 17 then xor64 (s.getD i 0) (lanes.getD i 0) else s.getD i 0
      absorbBlocks (keccakF s1) rest

/-- Squeeze the 32-byte digest from the sponge state (little-endian lanes). -/
def squeeze256 (s : List Nat) : Bytes :=
  (List.range 32).map fun i => Nat.shiftRight (s.getD (i / 8) 0) (i % 8 * 8) % 256

/-- keccak256 of a byte string. -/
def keccak256 (input : Bytes) : Bytes :=
  let rate := 136
  let padded := pad101 input rate
  let blocks := (List.range (padded.length / rate)).map fun b =>
    (padded.drop (b * rate)).take rate
  squeeze256 (absorbBlocks (List.replicate 25 0) blocks)

end Keccak

/-! ## Merkle library (`src/common/src/merkle/mod.rs`, `fixed.rs`)

`Hash` is a 32-byte value; `Hash::default()` is the zero hash. -/

namespace Merkle

abbrev Hash := Bytes

/-- `Hash::default()`: 32 zero bytes. -/
def zeroHash : Hash := List.replicate 32 0

/-- `hash_two::<Keccak256>`: keccak256 of the concatenation, no separator. -/
def hashTwo (left right : Hash) : Hash := Keccak.keccak256 (left ++ right)

/-- `hash_leaf::<Keccak256>`: keccak256 of the raw bytes. -/
def hashLeaf (preimage : Bytes) : Hash := Keccak.keccak256 preimage

/-- `Hash::from_slice`: truncate to 32 bytes, or right-pad with zeros. -/
def hashFromSlice (slice : Bytes) : Hash :=
  if 32 < slice.length then slice.take 32
  else slice ++ List.replicate (32 - slice.length) 0

inductive Error
  | RootNotFound
  | NodesNotFound
deriving DecidableEq

instance {ε α : Type} [DecidableEq ε] [DecidableEq α] : DecidableEq (Except ε α) := fun x y =>
  match x, y with
  | .error a, .error b =>
      if h : a = b then .isTrue (congrArg Except.error h)
      else .isFalse fun hc => h (Except.error.inj hc)
  | .error _, .ok _ => .isFalse fun hc => Except.noConfusion hc
  | .ok _, .error _ => .isFalse fun hc => Except.noConfusion hc
  | .ok a, .ok b =>
      if h : a = b then .isTrue (congrArg Except.ok h)
      else .isFalse fun hc => h (Except.ok.inj hc)

/-- Doubling loop computing the smallest power of two that is at least `n`;
the fuel argument only drives structural recursion and `n` steps always suffice. -/
def npotAux (n : Nat) : Nat → Nat → Nat
  | 0, p => p
  | fuel + 1, p => if n ≤ p then p else npotAux n fuel (2 * p)

/-- `usize::next_power_of_two` (1 on inputs 0 and 1). -/
def nextPowerOfTwo (n : Nat) : Nat := npotAux n n 1

/-- Halving loop computing the bit length of `n`; fuel as in `npotAux`. -/
def bitLenAux : Nat → Nat → Nat
  | 0, _ => 0
  | fuel + 1, n => if n = 0 then 0 else bitLenAux fuel (n / 2) + 1

/-- The bit length of `n`: `u64::BITS - n.leading_zeros()` for `n < 2^64`. -/
def bitLen (n : Nat) : Nat := bitLenAux n n

/-- The per-level padding constants: `d 0` is the zero hash and
`d (i+1) = keccak256(d i || d i)`. -/
def defaultHash : Nat → Hash
  | 0 => zeroHash
  | i + 1 => hashTwo (defaultHash i) (defaultHash i)

/-- The `defaults` vector built by `DenseMerkleTree::new`: `d 0 … d (n-1)`. -/
def defaultsList (n : Nat) : List Hash := (List.range n).map defaultHash

/-- One level-building pass: pairwise hashing of `par_iter().chunks(2)`, hashing a
trailing lone node with the level's padding constant. -/
def buildLevel (defaultH : Hash) : List Hash → List Hash
  | [] => []
  | [a] => [hashTwo a defaultH]
  | a :: b :: rest => hashTwo a b :: buildLevel defaultH rest

/-- The levels list built by the `for i in 0..num_levels` loop of
`DenseMerkleTree::new`, starting at level `i` with `steps` passes remaining;
position `j` of the result is level `i + j` of the tree. -/
def buildFrom (defaults : List Hash) (i : Nat) : Nat → List Hash → List (List Hash)
  | 0, cur => [cur]
  | steps + 1, cur =>
      cur :: buildFrom defaults (i + 1) steps (buildLevel (defaults.getD i zeroHash) cur)

/-- Dense (fixed) Merkle tree: the level-indexed node lists, the number of levels
and the padding constants, as stored by the Rust struct. -/
structure DenseMerkleTree where
  nodes : List (List Hash)
  numLevels : Nat
  defaults : List Hash
deriving DecidableEq

namespace DenseMerkleTree

/-- `DenseMerkleTree::new`: right-pad the leaves with the zero hash to the next
power of two `p`, set `num_levels` to the bit length of `p`
(`u64::BITS - p.leading_zeros()`), and build the levels bottom-up. -/
def new (leaves : List Hash) : DenseMerkleTree :=
  let npot := nextPowerOfTwo leaves.length
  let padded := leaves ++ List.replicate (npot - leaves.length) zeroHash
  let numLevels := bitLen npot
  let defaults := defaultsList numLevels
  { nodes := buildFrom defaults 0 numLevels padded
    numLevels := numLevels
    defaults := defaults }

/-- `DenseMerkleTree::root`: the first node of level `num_levels`. -/
def root (t : DenseMerkleTree) : Except Error Hash :=
  match t.nodes.get? t.numLevels with
  | some level => .ok (level.headD zeroHash)
  | none => .error .RootNotFound

/-- Loop body of `generate_path`: collect the sibling hash at each of the
`steps` remaining levels, starting from `level`, walking `curIndex` upward. -/
def generatePathAux (nodes : List (List Hash)) (defaults : List Hash) :
    Nat → Nat → Nat → Except Error (List Hash)
  | _, _, 0 => .ok []
  | level, curIndex, steps + 1 =>
      match nodes.get? level with
      | none => .error .NodesNotFound
      | some levelNodes =>
          let siblingIndex := if curIndex % 2 == 0 then curIndex + 1 else curIndex - 1
          let siblingHash :=
            if siblingIndex < levelNodes.length then levelNodes.getD siblingIndex zeroHash
            else defaults.getD level zeroHash
          match generatePathAux nodes defaults (level + 1) (curIndex / 2) steps with
          | .error e => .error e
          | .ok path => .ok (siblingHash :: path)

/-- `DenseMerkleTree::generate_path`. -/
def generatePath (t : DenseMerkleTree) (index : Nat) : Except Error (List Hash) :=
  match t.nodes.get? 0 with
  | none => .error .NodesNotFound
  | some leaves =>
      if leaves.length ≤ index then .error .NodesNotFound
      else generatePathAux t.nodes t.defaults 0 index t.numLevels

/-- The fold inside `verify_path`: reconstruct the root from a leaf, its index
and the sibling path. -/
def verifyPathAux : Hash → Nat → List Hash → Hash
  | current, _, [] => current
  | current, curIndex, sibling :: rest =>
      verifyPathAux
        (if curIndex % 2 == 0 then hashTwo current sibling else hashTwo sibling current)
        (curIndex / 2) rest

/-- `DenseMerkleTree::verify_path`. -/
def verifyPath (leaf : Hash) (index : Nat) (path : List Hash) (expectedRoot : Hash) : Bool :=
  verifyPathAux leaf index path == expectedRoot

/-- The level-0 list of `new`: the leaves right-padded with the zero hash to
the next power of two. -/
def paddedLeaves (leaves : List Hash) : List Hash :=
  leaves ++ List.replicate (nextPowerOfTwo leaves.length - leaves.length) zeroHash

/-- `buildLevel` iterated `j` times starting at level `i`: the content of level
`i + j` when level `i` holds `cur`. -/
def buildIter (defaults : List Hash) (i : Nat) : Nat → List Hash → List Hash
  | 0, cur => cur
  | j + 1, cur => buildIter defaults (i + 1) j (buildLevel (defaults.getD i zeroHash) cur)

end DenseMerkleTree

end Merkle

/-! ## Ordered maps (`std::collections::BTreeMap<u64, _>`)

A `BTreeMap` is modelled as its ascending association list.  All maps built by
the code are sorted; theorems about arbitrary inputs carry a `Sorted`
hypothesis, which is exactly the invariant a `BTreeMap` value always has. -/

abbrev SMap (α : Type) := List (Nat × α)

namespace SMap

def find? {α : Type} : SMap α → Nat → Option α
  | [], _ => none
  | (k, v) :: rest, key => if key = k then some v else find? rest key

def getD {α : Type} (m : SMap α) (key : Nat) (d : α) : α := (find? m key).getD d

def contains {α : Type} (m : SMap α) (key : Nat) : Bool := (find? m key).isSome

/-- `BTreeMap::insert`: replace the value at `key`, keeping ascending order. -/
def insert {α : Type} : SMap α → Nat → α → SMap α
  | [], key, v => [(key, v)]
  | (k, w) :: rest, key, v =>
      if key < k then (key, v) :: (k, w) :: rest
      else if key = k then (key, v) :: rest
      else (k, w) :: insert rest key v

/-- `BTreeMap::remove` (the removed value is not returned here). -/
def erase {α : Type} : SMap α → Nat → SMap α
  | [], _ => []
  | (k, w) :: rest, key => if key = k then rest else (k, w) :: erase rest key

def keyList {α : Type} (m : SMap α) : List Nat := m.map Prod.fst

/-- Ascending keys (hence unique): the shape invariant of a `BTreeMap`. -/
def Sorted {α : Type} (m : SMap α) : Prop := List.Pairwise (fun a b => a.1 < b.1) m

instance {α : Type} (m : SMap α) : Decidable (Sorted m) := by
  unfold Sorted; infer_instance

/-- Sum of the values of a rational-valued map (`values().sum()`). -/
def sumValues (m : SMap ℚ) : ℚ := (m.map Prod.snd).sum

end SMap

/-! ## `OutboundLocalTrust` (`src/common/src/runners/mod.rs`; the copy in
`src/common/src/runner.rs` is textually identical).

`f32` values are exact rationals here. -/

structure OutboundLocalTrust where
  outbound_trust_scores : SMap ℚ
  outbound_sum : ℚ
deriving DecidableEq

namespace OutboundLocalTrust

/-- `OutboundLocalTrust::new`. -/
def new : OutboundLocalTrust := { outbound_trust_scores := [], outbound_sum := 0 }

/-- `OutboundLocalTrust::from_score_map`. -/
def from_score_map (score_map : SMap ℚ) : OutboundLocalTrust :=
  { outbound_trust_scores := score_map, outbound_sum := SMap.sumValues score_map }

/-- `OutboundLocalTrust::norm`: divide every value by the cached sum. -/
def norm (o : OutboundLocalTrust) : OutboundLocalTrust :=
  { outbound_trust_scores := o.outbound_trust_scores.map fun p => (p.1, p.2 / o.outbound_sum)
    outbound_sum := 1 }

/-- `OutboundLocalTrust::get`. -/
def get (o : OutboundLocalTrust) (peer_id : Nat) : Option ℚ :=
  SMap.find? o.outbound_trust_scores peer_id

/-- `OutboundLocalTrust::contains_key`. -/
def contains_key (o : OutboundLocalTrust) (peer_id : Nat) : Bool :=
  SMap.contains o.outbound_trust_scores peer_id

/-- `OutboundLocalTrust::remove`: subtract the removed value from the cached sum. -/
def remove (o : OutboundLocalTrust) (peer_id : Nat) : OutboundLocalTrust :=
  let to_be_removed := SMap.getD o.outbound_trust_scores peer_id 0
  { outbound_trust_scores := SMap.erase o.outbound_trust_scores peer_id
    outbound_sum := o.outbound_sum - to_be_removed }

/-- `OutboundLocalTrust::insert`: swap the previous value for the new one in the
cached sum, then store the new value. -/
def insert (o : OutboundLocalTrust) (peer_id : Nat) (value : ℚ) : OutboundLocalTrust :=
  let prev_value := SMap.getD o.outbound_trust_scores peer_id 0
  { outbound_trust_scores := SMap.insert o.outbound_trust_scores peer_id value
    outbound_sum := o.outbound_sum - prev_value + value }

end OutboundLocalTrust

/-- A sequence element for exercising `OutboundLocalTrust`: one `insert` or one
`remove` call. -/
inductive TrustOp
  | ins (peer : Nat) (value : ℚ)
  | rem (peer : Nat)

/-- Apply one operation. -/
def applyTrustOp (o : OutboundLocalTrust) : TrustOp → OutboundLocalTrust
  | .ins k v => o.insert k v
  | .rem k => o.remove k

/-- Apply a sequence of operations in order. -/
def applyTrustOps (o : OutboundLocalTrust) (ops : List TrustOp) : OutboundLocalTrust :=
  ops.foldl applyTrustOp o

/-- Every `insert` of the sequence carries a nonzero value — the discipline all
call sites of `OutboundLocalTrust::insert` follow. -/
def insValuesNonzero : List TrustOp → Bool
  | [] => true
  | TrustOp.ins _ v :: rest => decide (v ≠ 0) && insValuesNonzero rest
  | TrustOp.rem _ :: rest => insValuesNonzero rest

/-! ## EigenTrust-style positive run (`src/common/src/algos/et.rs`) and the
SybilRank normalisation (`src/common/src/algos/sr.rs`). -/

namespace Et

/-- `PRE_TRUST_WEIGHT = 0.5`. -/
def PRE_TRUST_WEIGHT : ℚ := 1 / 2

/-- `DELTA = 0.01`. -/
def DELTA : ℚ := 1 / 100

/-- One summand per entry of every row whose key is not yet visited: an upper
bound on the number of worklist pushes still possible.  Only used to size the
fuel of the worklist and to prove the fuel never runs out. -/
def rowBudget (lt : SMap OutboundLocalTrust) (visited : List Nat) : Nat :=
  ((lt.filter fun p => !visited.contains p.1).map
    fun p => p.2.outbound_trust_scores.length).sum

/-- Worklist loop of `find_reachable_peers`, popping the head of `toVisit`.
The `fuel` argument only drives structural recursion: every recursion step pops
one queued node, and `reachFuel` below bounds the number of nodes ever queued,
so the truncation branch is never taken (`findReachableAux_fuel_unused`).
The source calls `lt.get(i).unwrap()` on every newly visited node; a node
without a row is given the empty row here, which agrees with the source
whenever every visited node has a row (the hypotheses of the theorems below
guarantee that). -/
def findReachableAux (lt : SMap OutboundLocalTrust) :
    Nat → List Nat → List Nat → List Nat
  | 0, _, visited => visited
  | _ + 1, [], visited => visited
  | fuel + 1, i :: rest, visited =>
      if i ∈ visited then findReachableAux lt fuel rest visited
      else
        let row := ((SMap.find? lt i).map OutboundLocalTrust.outbound_trust_scores).getD []
        let pushes := (row.filter fun jv => !visited.contains jv.1 && decide (0 < jv.2)).map Prod.fst
        findReachableAux lt fuel (rest ++ pushes) (i :: visited)

/-- Fuel that always suffices for the worklist on `lt` started from `toVisit`:
the initial queue plus one unit per row entry. -/
def reachFuel (lt : SMap OutboundLocalTrust) (toVisit : List Nat) : Nat :=
  toVisit.length + rowBudget lt []

/-- `find_reachable_peers`: the set of nodes reachable from the seed keys along
positive-weight edges, as the list of visited nodes. -/
def find_reachable_peers (lt : SMap OutboundLocalTrust) (seed : SMap ℚ) : List Nat :=
  findReachableAux lt (reachFuel lt (SMap.keyList seed)) (SMap.keyList seed) []

/-- Reachability from a start list along positive-weight edges, following rows
through `SMap.find?` exactly as the worklist does.  `find_reachable_peers`
computes exactly this set (`find_reachable_peers_iff`). -/
inductive Reaches (lt : SMap OutboundLocalTrust) (start : List Nat) : Nat → Prop
  | base (i : Nat) : i ∈ start → Reaches lt start i
  | step (f t : Nat) (r : OutboundLocalTrust) (v : ℚ) : Reaches lt start f →
      SMap.find? lt f = some r → (t, v) ∈ r.outbound_trust_scores → 0 < v →
      Reaches lt start t

/-- `pre_process` (identical in `et.rs` and `sr.rs`): uniform-seed fallback,
seed-redistribution of zero-outbound rows, then reachability pruning. -/
def pre_process (lt : SMap OutboundLocalTrust) (seed : SMap ℚ) (count : Nat) :
    SMap OutboundLocalTrust × SMap ℚ :=
  let sum := SMap.sumValues seed
  let seed1 :=
    if sum = 0 then (List.range count).foldl (fun s i => SMap.insert s i 1) seed else seed
  let lt1 := (List.range count).foldl
    (fun l fromIdx =>
      let rowSum := ((SMap.find? l fromIdx).map OutboundLocalTrust.outbound_sum).getD 0
      if rowSum = 0 then SMap.insert l fromIdx (OutboundLocalTrust.from_score_map seed1) else l)
    lt
  let reachable := find_reachable_peers lt1 seed1
  (lt1.filter fun p => p.1 ∈ reachable, seed1)

/-- `normalise_lt`: replace every row by its `norm()`.  The parallel
fold/reduce of the source merges per-row singleton maps; sequentially that is a
fold of inserts starting from the empty map. -/
def normalise_lt (lt : SMap OutboundLocalTrust) : SMap OutboundLocalTrust :=
  lt.foldl (fun acc p => SMap.insert acc p.1 p.2.norm) []

/-- `et.rs::normalise_scores`: divide every value by the total
(unconditionally; there is no zero-sum guard in this copy). -/
def normalise_scores (scores : SMap ℚ) : SMap ℚ :=
  let sum := SMap.sumValues scores
  scores.foldl (fun acc p => SMap.insert acc p.1 (p.2 / sum)) []

/-- `is_converged`: the total absolute difference over the keys of the first
map, and its comparison with `DELTA`. -/
def is_converged (scores next_scores : SMap ℚ) : Bool × ℚ :=
  let total_delta := scores.foldl (fun sum p => |SMap.getD next_scores p.1 0 - p.2| + sum) 0
  (decide (total_delta ≤ DELTA), total_delta)

/-- The additive update of one row of `lt` into the accumulated propagation map
(the body of the per-row `partial` loop, fused with the `reduce` merge, which
adds partial maps entry-wise). -/
def propagateRow (acc : SMap ℚ) (row : SMap ℚ) (origin_score : ℚ) : SMap ℚ :=
  row.foldl
    (fun acc2 tv =>
      let score := tv.2 * origin_score
      let to_score := SMap.getD acc2 tv.1 0
      SMap.insert acc2 tv.1 (to_score + score))
    acc

/-- Steps 1-3 of `iteration`: the propagated raw contributions
(`next_scores` before the pre-trust blend). -/
def propagate (lt : SMap OutboundLocalTrust) (scores : SMap ℚ) : SMap ℚ :=
  lt.foldl
    (fun acc p => propagateRow acc p.2.outbound_trust_scores (SMap.getD scores p.1 0))
    []

/-- `iteration`: propagate the scores along the rows of `lt` (the source builds
one partial map per row and merges them additively; folding the additive update
row by row into one accumulator is that merge, sequentialised), then apply the
pre-trust blend to every entry of the propagated map. -/
def iteration (lt : SMap OutboundLocalTrust) (seed scores : SMap ℚ) : SMap ℚ :=
  let next_scores := propagate lt scores
  next_scores.map fun p =>
    (p.1, PRE_TRUST_WEIGHT * SMap.getD seed p.1 0 + p.2 * (1 - PRE_TRUST_WEIGHT))

/-- The unbounded `loop` of `positive_run`, with explicit fuel; `none` means the
fuel ran out before the convergence branch fired. -/
def positive_run_loop (lt : SMap OutboundLocalTrust) (seed : SMap ℚ) :
    Nat → SMap ℚ → Option (SMap ℚ)
  | 0, _ => none
  | fuel + 1, scores =>
      let n_plus_1_scores := normalise_scores (iteration lt seed scores)
      let n_plus_2_scores := normalise_scores (iteration lt seed n_plus_1_scores)
      if (is_converged n_plus_1_scores n_plus_2_scores).1 then some n_plus_1_scores
      else positive_run_loop lt seed fuel n_plus_2_scores

/-- `positive_run`: pre-process, normalise seed and matrix, then iterate from
the normalised seed until the one-step convergence test fires. -/
def positive_run (lt : SMap OutboundLocalTrust) (seed : SMap ℚ) (count : Nat)
    (fuel : Nat) : Option (SMap ℚ) :=
  let pp := pre_process lt seed count
  let seedN := normalise_scores pp.2
  let ltN := normalise_lt pp.1
  positive_run_loop ltN seedN fuel seedN

/-- `convergence_check`: pre-process and normalise `(lt, seed)` exactly as
`positive_run` does, run one iteration from the candidate scores, and test the
`is_converged` bound against the candidate. -/
def convergence_check (lt : SMap OutboundLocalTrust) (seed : SMap ℚ)
    (scores : SMap ℚ) (count : Nat) : Bool :=
  let pp := pre_process lt seed count
  let seedN := normalise_scores pp.2
  let ltN := normalise_lt pp.1
  let next_scores := normalise_scores (iteration ltN seedN scores)
  (is_converged scores next_scores).1

/-- The set of indices receiving propagated mass: every `to` key of every row.
Used to state what `iteration` actually produces. -/
def ltTargets (lt : SMap OutboundLocalTrust) : List Nat :=
  lt.flatMap fun p => p.2.outbound_trust_scores.map Prod.fst

/-- The specification-side propagated value
`y[to] = Σ_from x[from] · L[from][to]`, written as a direct sum. -/
def ySumSpec (lt : SMap OutboundLocalTrust) (scores : SMap ℚ) (i : Nat) : ℚ :=
  (lt.map fun p =>
    SMap.getD p.2.outbound_trust_scores i 0 * SMap.getD scores p.1 0).sum

end Et

namespace Sr

/-- `sr.rs::normalise_scores`: this copy returns the map unchanged when the
value sum is zero, and divides every value by the sum otherwise. -/
def normalise_scores (scores : SMap ℚ) : SMap ℚ :=
  let sum := SMap.sumValues scores
  if sum = 0 then scores
  else scores.foldl (fun acc p => SMap.insert acc p.1 (p.2 / sum)) []

end Sr

/-! ## Entries and byte encodings (`src/common/src/tx/trust.rs`, `f32::to_be_bytes`) -/

/-- `TrustEntry { from, to, value }`. -/
structure TrustEntry where
  fromId : String
  toId : String
  value : ℚ
deriving DecidableEq

/-- `ScoreEntry { id, value }`. -/
structure ScoreEntry where
  id : String
  value : ℚ
deriving DecidableEq

/-- The binary32 exponent of `a > 0`: the unique `e ∈ [-126, 127]` with
`2 ^ e ≤ a`, largest first, defaulting to the subnormal regime. -/
def findExp (a : ℚ) : Int :=
  ((((List.range 254).map fun i => (127 : Int) - i).find? fun e => decide ((2 : ℚ) ^ e ≤ a)).getD
    (-126))

/-- `f32::to_be_bytes` on the rational model of `f32`: exact on every value that
is a normal binary32 float (all values these theorems ever evaluate); rationals
off the binary32 grid are truncated rather than round-to-nearest-even, and the
subnormal regime is approximated — no claim depends on either. -/
def f32ToBeBytes (q : ℚ) : Bytes :=
  if q = 0 then [0, 0, 0, 0]
  else
    let sgn : Nat := if q < 0 then 1 else 0
    let a := |q|
    let e := findExp a
    let m := (Rat.floor (a * (2 : ℚ) ^ ((23 : Int) - e))).toNat
    let expField := (e + 127).toNat
    let bits := sgn * 2 ^ 31 + expField * 2 ^ 23 + (m - 2 ^ 23)
    [bits / 2 ^ 24 % 256, bits / 2 ^ 16 % 256, bits / 2 ^ 8 % 256, bits % 256]

/-- `usize::to_be_bytes` (8 bytes, big-endian). -/
def beBytes8 (i : Nat) : Bytes :=
  (List.range 8).map fun k => i / 2 ^ (8 * (7 - k)) % 256

/-- Value of one hexadecimal digit, accepting both cases (`hex::decode`). -/
def hexDigitVal (c : Char) : Option Nat :=
  if 48 ≤ c.toNat ∧ c.toNat ≤ 57 then some (c.toNat - 48)
  else if 97 ≤ c.toNat ∧ c.toNat ≤ 102 then some (c.toNat - 87)
  else if 65 ≤ c.toNat ∧ c.toNat ≤ 70 then some (c.toNat - 55)
  else none

/-- `hex::decode`: two digits per byte; odd length or a bad digit fails. -/
def hexDecode : List Char → Option Bytes
  | [] => some []
  | [_] => none
  | c1 :: c2 :: rest =>
      match hexDigitVal c1, hexDigitVal c2, hexDecode rest with
      | some h, some l, some bs => some ((16 * h + l) :: bs)
      | _, _, _ => none

/-- A lowercase hexadecimal digit character. -/
def hexChar (n : Nat) : Char := if n < 10 then Char.ofNat (48 + n) else Char.ofNat (87 + n)

/-- `hex::encode` / `Hash::to_hex`: lowercase, two digits per byte. -/
def hexEncode (bs : Bytes) : List Char :=
  bs.flatMap fun b => [hexChar (b / 16), hexChar (b % 16)]

/-! ## Verification runner (`src/common/src/runners/verification_runner.rs`)

The runner is instantiated by the challenger with the single `Domain::default()`
and every operation is keyed by that one domain, so the per-domain `HashMap`
layers collapse to one entry each; the state below is that entry.  `HashMap`s
keyed by strings or hashes are association lists (insertion order; only lookup,
and replace-or-append insertion, are used). -/

/-- `HashMap::get`. -/
def lookupBy {κ α : Type} [DecidableEq κ] : List (κ × α) → κ → Option α
  | [], _ => none
  | (k, v) :: rest, key => if key = k then some v else lookupBy rest key

/-- `HashMap::insert`: replace the existing entry or append a new one. -/
def insertBy {κ α : Type} [DecidableEq κ] : List (κ × α) → κ → α → List (κ × α)
  | [], key, v => [(key, v)]
  | (k, w) :: rest, key, v =>
      if key = k then (key, v) :: rest else (k, w) :: insertBy rest key v

/-- The state of `VerificationRunner` (with its `BaseRunner`), for the one
default domain. -/
structure VerificationRunner where
  count : Nat
  indices : List (String × Nat)
  rev_indices : List (Nat × String)
  local_trust : SMap OutboundLocalTrust
  seed_trust : SMap ℚ
  compute_scores : List (Merkle.Hash × List ScoreEntry)
  compute_tree : List (Merkle.Hash × Merkle.DenseMerkleTree)
  commitments : List (Merkle.Hash × Merkle.Hash)

/-- A computation that may `unwrap`-panic. -/
inductive PanicOr (α : Type)
  | panic
  | val (a : α)
deriving DecidableEq

/-- `verification_runner::Error`, restricted to the variants reachable in the
single-domain model (the domain-map lookups of the source always succeed for
the one registered domain). -/
inductive VError
  | DomainIndexNotFound (addr : String)
  | MerkleErr (e : Merkle.Error)
deriving DecidableEq

namespace VerificationRunner

/-- `VerificationRunner::new(&[domain])` for the one default domain. -/
def new : VerificationRunner :=
  { count := 0, indices := [], rev_indices := [], local_trust := [], seed_trust := []
    compute_scores := [], compute_tree := [], commitments := [] }

/-- The index-assignment block shared by `update_trust_map` and
`update_seed_map`: look the string up, or assign it the next dense index. -/
def assignIdx (r : VerificationRunner) (s : String) : VerificationRunner × Nat :=
  match lookupBy r.indices s with
  | some i => (r, i)
  | none =>
      let curr_count := r.count
      ({ r with
          indices := insertBy r.indices s curr_count
          rev_indices := insertBy r.rev_indices curr_count s
          count := curr_count + 1 }, curr_count)

/-- `BaseRunner::update_trust_map` (single domain): assign indices, then apply
the zero-removes / nonzero-overwrites policy to the `from` row (the row itself
is created by `entry().or_insert` even when the policy then does nothing). -/
def update_trust_map (r : VerificationRunner) (trust_entries : List TrustEntry) :
    VerificationRunner :=
  trust_entries.foldl
    (fun r entry =>
      let step1 := assignIdx r entry.fromId
      let step2 := assignIdx step1.1 entry.toId
      let r2 := step2.1
      let from_index := step1.2
      let to_index := step2.2
      let from_map := (SMap.find? r2.local_trust from_index).getD OutboundLocalTrust.new
      let keyExists := from_map.contains_key to_index
      let from_map2 :=
        if entry.value = 0 then (if keyExists then from_map.remove to_index else from_map)
        else from_map.insert to_index entry.value
      { r2 with local_trust := SMap.insert r2.local_trust from_index from_map2 })
    r

/-- `BaseRunner::update_seed_map` (single domain). -/
def update_seed_map (r : VerificationRunner) (seed_entries : List ScoreEntry) :
    VerificationRunner :=
  seed_entries.foldl
    (fun r entry =>
      let step := assignIdx r entry.id
      let r1 := step.1
      let index := step.2
      let keyExists := SMap.contains r1.seed_trust index
      let seed2 :=
        if entry.value = 0 then (if keyExists then SMap.erase r1.seed_trust index else r1.seed_trust)
        else SMap.insert r1.seed_trust index entry.value
      { r1 with seed_trust := seed2 })
    r

/-- `VerificationRunner::update_commitment`. -/
def update_commitment (r : VerificationRunner) (compute_id commitment : Merkle.Hash) :
    VerificationRunner :=
  { r with commitments := insertBy r.commitments compute_id commitment }

/-- `VerificationRunner::update_scores` (single domain; the domain lookup of the
source always succeeds). -/
def update_scores (r : VerificationRunner) (compute_id : Merkle.Hash)
    (scores : List ScoreEntry) : VerificationRunner :=
  { r with compute_scores := insertBy r.compute_scores compute_id scores }

/-- `VerificationRunner::create_compute_tree`: `unwrap` of the registered scores
(panic when absent), then the fixed tree over the keccak hashes of the
big-endian score bytes; the root is demanded once for the log line. -/
def create_compute_tree (r : VerificationRunner) (compute_id : Merkle.Hash) :
    PanicOr (Except VError VerificationRunner) :=
  match lookupBy r.compute_scores compute_id with
  | none => .panic
  | some scores =>
      let score_hashes := scores.map fun x => Merkle.hashLeaf (f32ToBeBytes x.value)
      let tree := Merkle.DenseMerkleTree.new score_hashes
      match tree.root with
      | .error e => .val (.error (.MerkleErr e))
      | .ok _ => .val (.ok { r with compute_tree := insertBy r.compute_tree compute_id tree })

/-- The root of a fresh `DenseIncrementalMerkleTree::<Keccak256>::new(32)`: the
level-32 padding constant.  The master trees of the base runner are only
modified by `update_trust`/`update_seed` (the tree-building variants), which no
caller modelled here invokes. -/
def masterTreeRoot : Merkle.Hash := Merkle.defaultHash 32

/-- `BaseRunner::get_base_root_hashes` for fresh master trees. -/
def get_base_root_hashes (_r : VerificationRunner) : Except VError Merkle.Hash :=
  .ok (Merkle.hashTwo masterTreeRoot masterTreeRoot)

/-- `VerificationRunner::get_root_hashes`: the base-tree roots hash and the
compute-tree root; `unwrap` of the compute tree (panic when absent). -/
def get_root_hashes (r : VerificationRunner) (assignment_id : Merkle.Hash) :
    PanicOr (Except VError (Merkle.Hash × Merkle.Hash)) :=
  match get_base_root_hashes r with
  | .error e => .val (.error e)
  | .ok tree_roots =>
      match lookupBy r.compute_tree assignment_id with
      | none => .panic
      | some t =>
          match t.root with
          | .error e => .val (.error (.MerkleErr e))
          | .ok ct_tree_root => .val (.ok (tree_roots, ct_tree_root))

/-- The score-entry mapping loop of `compute_verification`: each external id is
resolved through the runner dictionary; an unknown id is a `DomainIndexNotFound`
error. -/
def mapScoreEntries (indices : List (String × Nat)) :
    List ScoreEntry → SMap ℚ → Except VError (SMap ℚ)
  | [], acc => .ok acc
  | e :: rest, acc =>
      match lookupBy indices e.id with
      | none => .error (.DomainIndexNotFound e.id)
      | some i => mapScoreEntries indices rest (SMap.insert acc i e.value)

/-- `VerificationRunner::compute_verification`: `unwrap` of the registered
scores, dictionary mapping, then the one-step convergence check. -/
def compute_verification (r : VerificationRunner) (compute_id : Merkle.Hash) :
    PanicOr (Except VError Bool) :=
  match lookupBy r.compute_scores compute_id with
  | none => .panic
  | some scores =>
      match mapScoreEntries r.indices scores [] with
      | .error e => .val (.error e)
      | .ok score_entries =>
          .val (.ok (Et.convergence_check r.local_trust r.seed_trust score_entries r.count))

/-- `VerificationRunner::verify_job`: `unwrap` the commitment (panic when
absent), build the compute tree, read the roots, run the convergence check, and
return `is_root_equal && is_converged`. -/
def verify_job (r : VerificationRunner) (compute_id : Merkle.Hash) :
    PanicOr (Except VError Bool) :=
  match lookupBy r.commitments compute_id with
  | none => .panic
  | some commitment =>
      let cp_root := commitment
      match create_compute_tree r compute_id with
      | .panic => .panic
      | .val (.error e) => .val (.error e)
      | .val (.ok r1) =>
          match get_root_hashes r1 compute_id with
          | .panic => .panic
          | .val (.error e) => .val (.error e)
          | .val (.ok roots) =>
              let is_root_equal := cp_root == roots.2
              match compute_verification r1 compute_id with
              | .panic => .panic
              | .val (.error e) => .val (.error e)
              | .val (.ok is_converged) => .val (.ok (is_root_equal && is_converged))

end VerificationRunner

/-! ## Challenger result handler (`src/app/src/challenger.rs`)

`handle_meta_compute_result` interleaves chain/S3/file I/O with pure
computation.  Each suspension point is a field of `ChallengerEnv` holding the
value (or error) that the call would produce, in program order; the handler
itself is then the pure function below.  Its result keeps the program's
distinction between an `unwrap` panic, an early `Err` return, an early `Ok`
return on the de-duplication guards, and a completed run with its computed
`challenge_window_open`, `global_result`, `sub_job_failed`, and the
`submitMetaChallenge` call it does or does not make. -/

namespace Challenger

/-- `JobResult { scores_id, commitment }` (hex strings). -/
structure JobResult where
  scores_id : List Char
  commitment : List Char
deriving DecidableEq

/-- `JobDescription`, restricted to the fields the handler reads. -/
structure JobDescription where
  trust_id : List Char
  seed_id : List Char
deriving DecidableEq

/-- `NodeError` kinds reachable in the handler. -/
inductive NodeErr
  | TxError
  | FileError
  | SerdeError
  | HexError
  | RunnerError (e : VError)
deriving DecidableEq

/-- The I/O outcomes of one `handle_meta_compute_result` call, in program
order.  Stage-1 blob downloads for one sub-job are folded into one outcome
(only their success or first failure is observed by the handler). -/
structure ChallengerEnv where
  computeId : Nat
  eventCommitment : Merkle.Hash
  challengeWindow : Nat
  metaResult : Except NodeErr (List JobResult)
  latestBlockTs : Except NodeErr Nat
  logBlockTs : Except NodeErr Nat
  alreadyChallenged : Bool
  requestPresent : Bool
  jobDescription : Except NodeErr (List JobDescription)
  createDirs : Except NodeErr Unit
  downloads : Nat → Except NodeErr Unit
  trustData : Nat → Except NodeErr (List TrustEntry)
  seedData : Nat → Except NodeErr (List ScoreEntry)
  scoresData : Nat → Except NodeErr (List ScoreEntry)

/-- Stage 1: one download task per sub-job; the results are checked in order
and the first failure propagates. -/
def stage1 (env : ChallengerEnv) : List Nat → Except NodeErr Unit
  | [] => .ok ()
  | i :: rest =>
      match env.downloads i with
      | .error e => .error e
      | .ok _ => stage1 env rest

/-- Stage 2, one sub-job: open and parse the three files, replay the trust and
seed updates into a fresh runner, register the hex-decoded commitment and the
claimed scores under the sub-job-index hash, and `verify_job`. -/
def verifySubJob (env : ChallengerEnv) (i : Nat) (res : JobResult) :
    PanicOr (Except NodeErr Bool) :=
  match env.trustData i with
  | .error e => .val (.error e)
  | .ok trust_entries =>
  match env.seedData i with
  | .error e => .val (.error e)
  | .ok seed_entries =>
  match env.scoresData i with
  | .error e => .val (.error e)
  | .ok scores_entries =>
  let runner := VerificationRunner.new
  let runner := runner.update_trust_map trust_entries
  let runner := runner.update_seed_map seed_entries
  match hexDecode res.commitment with
  | none => .val (.error .HexError)
  | some commitment_bytes =>
  let cid := Merkle.hashFromSlice (beBytes8 i)
  let runner := runner.update_commitment cid (Merkle.hashFromSlice commitment_bytes)
  let runner := runner.update_scores cid scores_entries
  match runner.verify_job cid with
  | .panic => .panic
  | .val (.error e) => .val (.error (.RunnerError e))
  | .val (.ok result) => .val (.ok result)

/-- Stage 2 over the enumerated sub-jobs: stop at the first `false` with its
index (`sub_job_failed`); `(true, 0)` when every sub-job verifies. -/
def stage2 (env : ChallengerEnv) : List (Nat × JobResult) → PanicOr (Except NodeErr (Bool × Nat))
  | [] => .val (.ok (true, 0))
  | (i, res) :: rest =>
      match verifySubJob env i res with
      | .panic => .panic
      | .val (.error e) => .val (.error e)
      | .val (.ok result) =>
          if result then stage2 env rest else .val (.ok (false, i))

/-- The `collect::<Result<Vec<_>, _>>` over `hex::decode` of the claimed
sub-job commitments. -/
def decodeCommitments : List (List Char) → Except NodeErr (List Merkle.Hash)
  | [] => .ok []
  | c :: rest =>
      match hexDecode c with
      | none => .error .HexError
      | some bs =>
          match decodeCommitments rest with
          | .error e => .error e
          | .ok tl => .ok (Merkle.hashFromSlice bs :: tl)

/-- What one completed (non-`Err`, non-panic) handler call did. -/
inductive HandleOut
  | skipped
  | completed (windowOpen : Bool) (globalResult : Bool) (submission : Option (Nat × Nat))
deriving DecidableEq

/-- `handle_meta_compute_result` as a pure function of its I/O outcomes.  A
`completed w g sub` value records the logged window flag, the final
`global_result`, and the `submitMetaChallenge(computeId, sub_job_failed)` call
(`sub`) that is made exactly when `g` is false. -/
def handle_meta_compute_result (env : ChallengerEnv) : PanicOr (Except NodeErr HandleOut) :=
  match env.metaResult with
  | .error e => .val (.error e)
  | .ok meta_result =>
  match env.latestBlockTs with
  | .error e => .val (.error e)
  | .ok latest_ts =>
  match env.logBlockTs with
  | .error e => .val (.error e)
  | .ok log_ts =>
  if env.alreadyChallenged then .val (.ok .skipped)
  else if !env.requestPresent then .val (.ok .skipped)
  else
  match env.jobDescription with
  | .error e => .val (.error e)
  | .ok job_description =>
  match env.createDirs with
  | .error e => .val (.error e)
  | .ok _ =>
  -- building the download tasks indexes `job_description[i]` for every sub-job
  -- and panics when the description list is shorter than the result list
  if job_description.length < meta_result.length then .panic
  else
  match stage1 env (List.range meta_result.length) with
  | .error e => .val (.error e)
  | .ok _ =>
  match stage2 env ((List.range meta_result.length).zip meta_result) with
  | .panic => .panic
  | .val (.error e) => .val (.error e)
  | .val (.ok st2) =>
  match decodeCommitments (meta_result.map JobResult.commitment) with
  | .error e => .val (.error e)
  | .ok commitment_hashes =>
  let commitment_tree := Merkle.DenseMerkleTree.new commitment_hashes
  match commitment_tree.root with
  | .error e => .val (.error (.RunnerError (.MerkleErr e)))
  | .ok meta_commitment =>
  let commitment_result := hexEncode meta_commitment == hexEncode env.eventCommitment
  let global_result := st2.1 && commitment_result
  let sub_job_failed := st2.2
  -- u64 subtraction wraps in release builds
  let challenge_window_open :=
    decide ((2 ^ 64 + latest_ts - log_ts) % 2 ^ 64 < env.challengeWindow)
  if global_result then .val (.ok (.completed challenge_window_open true none))
  else .val (.ok (.completed challenge_window_open false
    (some (env.computeId, sub_job_failed))))

/-- The `submitMetaChallenge` call a handler outcome makes, if any. -/
def submissionOf : PanicOr (Except NodeErr HandleOut) → Option (Nat × Nat)
  | .val (.ok (.completed _ _ sub)) => sub
  | _ => none

end Challenger

/-! # Theorems

First a toolkit of `SMap` lemmas, then the claims in order. -/

namespace SMap

theorem find?_insert_self {α : Type} (m : SMap α) (k : Nat) (v : α) :
    find? (insert m k v) k = some v := by
  induction m with
  | nil => simp [insert, find?]
  | cons hd tl ih =>
      rw [show hd = (hd.1, hd.2) from rfl, insert]
      by_cases h1 : k < hd.1
      · rw [if_pos h1, find?, if_pos rfl]
      · rw [if_neg h1]
        by_cases h2 : k = hd.1
        · rw [if_pos h2, find?, if_pos rfl]
        · rw [if_neg h2, find?, if_neg h2]
          exact ih

theorem find?_insert_ne {α : Type} (m : SMap α) (k j : Nat) (v : α) (h : j ≠ k) :
    find? (insert m k v) j = find? m j := by
  induction m with
  | nil => simp [insert, find?, h]
  | cons hd tl ih =>
      rw [show hd = (hd.1, hd.2) from rfl, insert]
      by_cases h1 : k < hd.1
      · rw [if_pos h1, find?, if_neg h, find?]
      · rw [if_neg h1]
        by_cases h2 : k = hd.1
        · rw [if_pos h2, find?, if_neg h, find?, if_neg (h2 ▸ h)]
        · rw [if_neg h2, find?, find?]
          by_cases h3 : j = hd.1
          · rw [if_pos h3, if_pos h3]
          · rw [if_neg h3, if_neg h3]
            exact ih

theorem getD_insert_self (m : SMap ℚ) (k : Nat) (v : ℚ) :
    getD (insert m k v) k 0 = v := by
  rw [getD, find?_insert_self]
  rfl

theorem getD_insert_ne (m : SMap ℚ) (k j : Nat) (v : ℚ) (h : j ≠ k) :
    getD (insert m k v) j 0 = getD m j 0 := by
  rw [getD, find?_insert_ne m k j v h, getD]

theorem mem_insert {α : Type} (m : SMap α) (k : Nat) (v : α) (p : Nat × α)
    (h : p ∈ insert m k v) : p = (k, v) ∨ p ∈ m := by
  induction m with
  | nil =>
      rw [insert] at h
      rcases List.mem_singleton.mp h with h1
      exact Or.inl h1
  | cons hd tl ih =>
      rw [show hd = (hd.1, hd.2) from rfl, insert] at h
      by_cases h1 : k < hd.1
      · rw [if_pos h1] at h
        rcases List.mem_cons.mp h with h2 | h2
        · exact Or.inl h2
        · exact Or.inr h2
      · rw [if_neg h1] at h
        by_cases h2 : k = hd.1
        · rw [if_pos h2] at h
          rcases List.mem_cons.mp h with h3 | h3
          · exact Or.inl h3
          · exact Or.inr (List.mem_cons_of_mem _ h3)
        · rw [if_neg h2] at h
          rcases List.mem_cons.mp h with h3 | h3
          · exact Or.inr (List.mem_cons.mpr (Or.inl h3))
          · rcases ih h3 with h4 | h4
            · exact Or.inl h4
            · exact Or.inr (List.mem_cons_of_mem _ h4)

theorem keys_insert_subset {α : Type} (m : SMap α) (k : Nat) (v : α) (j : Nat)
    (h : j ∈ keyList (insert m k v)) : j = k ∨ j ∈ keyList m := by
  rcases List.mem_map.mp h with ⟨p, hp, hj⟩
  rcases mem_insert m k v p hp with h1 | h1
  · left; rw [← hj, h1]
  · right; exact List.mem_map.mpr ⟨p, h1, hj⟩

theorem sorted_insert {α : Type} (m : SMap α) (k : Nat) (v : α) (hs : Sorted m) :
    Sorted (insert m k v) := by
  induction m with
  | nil => simp [insert, Sorted]
  | cons hd tl ih =>
      rw [show hd = (hd.1, hd.2) from rfl] at hs ⊢
      rw [Sorted, List.pairwise_cons] at hs
      rw [insert]
      by_cases h1 : k < hd.1
      · rw [if_pos h1, Sorted, List.pairwise_cons]
        refine ⟨?_, hs.2.cons ?_⟩
        · intro p hp
          rcases List.mem_cons.mp hp with h2 | h2
          · rw [h2]; exact h1
          · exact lt_trans h1 (hs.1 p h2)
        · exact hs.1
      · rw [if_neg h1]
        by_cases h2 : k = hd.1
        · rw [if_pos h2, Sorted, List.pairwise_cons]
          exact ⟨fun p hp => h2 ▸ hs.1 p hp, hs.2⟩
        · rw [if_neg h2, Sorted, List.pairwise_cons]
          refine ⟨?_, ih hs.2⟩
          intro p hp
          rcases mem_insert tl k v p hp with h3 | h3
          · rw [h3]
            exact lt_of_le_of_ne (Nat.le_of_not_lt h1) (fun hkk => h2 hkk.symm)
          · exact hs.1 p h3

theorem find?_eq_none_iff {α : Type} (m : SMap α) (k : Nat) :
    find? m k = none ↔ k ∉ keyList m := by
  induction m with
  | nil => simp [find?, keyList]
  | cons hd tl ih =>
      rw [show hd = (hd.1, hd.2) from rfl, find?, keyList]
      by_cases h : k = hd.1
      · simp [h]
      · simp only [if_neg h, List.map_cons, List.mem_cons]
        rw [ih, keyList]
        constructor
        · intro h1 h2
          rcases h2 with h2 | h2
          · exact h h2
          · exact h1 h2
        · intro h1 h2
          exact h1 (Or.inr h2)

theorem getD_eq_zero_of_not_mem (m : SMap ℚ) (k : Nat) (h : k ∉ keyList m) :
    getD m k 0 = 0 := by
  rw [getD, (find?_eq_none_iff m k).mpr h]
  rfl

theorem find?_erase_self (m : SMap ℚ) (k : Nat) (hs : Sorted m) :
    find? (erase m k) k = none := by
  induction m with
  | nil => simp [erase, find?]
  | cons hd tl ih =>
      rw [show hd = (hd.1, hd.2) from rfl] at hs ⊢
      rw [Sorted, List.pairwise_cons] at hs
      rw [erase]
      by_cases h : k = hd.1
      · rw [if_pos h, find?_eq_none_iff]
        intro hk
        rcases List.mem_map.mp hk with ⟨p, hp, hkp⟩
        have := hs.1 p hp
        omega
      · rw [if_neg h, find?, if_neg h]
        exact ih hs.2

theorem find?_erase_ne (m : SMap ℚ) (k j : Nat) (h : j ≠ k) :
    find? (erase m k) j = find? m j := by
  induction m with
  | nil => simp [erase, find?]
  | cons hd tl ih =>
      rw [show hd = (hd.1, hd.2) from rfl, erase, find?]
      by_cases h1 : k = hd.1
      · rw [if_pos h1, if_neg (h1 ▸ h)]
      · rw [if_neg h1, find?]
        by_cases h2 : j = hd.1
        · rw [if_pos h2, if_pos h2]
        · rw [if_neg h2, if_neg h2]
          exact ih

theorem mem_erase_subset (m : SMap ℚ) (k : Nat) (p : Nat × ℚ)
    (h : p ∈ erase m k) : p ∈ m := by
  induction m with
  | nil => exact h
  | cons hd tl ih =>
      rw [show hd = (hd.1, hd.2) from rfl, erase] at h
      by_cases h1 : k = hd.1
      · rw [if_pos h1] at h
        exact List.mem_cons_of_mem _ h
      · rw [if_neg h1] at h
        rcases List.mem_cons.mp h with h2 | h2
        · exact List.mem_cons.mpr (Or.inl h2)
        · exact List.mem_cons_of_mem _ (ih h2)

theorem sorted_erase (m : SMap ℚ) (k : Nat) (hs : Sorted m) : Sorted (erase m k) := by
  induction m with
  | nil => simpa [erase] using hs
  | cons hd tl ih =>
      rw [show hd = (hd.1, hd.2) from rfl] at hs ⊢
      rw [Sorted, List.pairwise_cons] at hs
      rw [erase]
      by_cases h1 : k = hd.1
      · rw [if_pos h1]; exact hs.2
      · rw [if_neg h1, Sorted, List.pairwise_cons]
        exact ⟨fun p hp => hs.1 p (mem_erase_subset tl k p hp), ih hs.2⟩

theorem sumValues_insert (m : SMap ℚ) (k : Nat) (v : ℚ) (hs : Sorted m) :
    sumValues (insert m k v) = sumValues m - getD m k 0 + v := by
  induction m with
  | nil => simp [insert, sumValues, getD, find?]
  | cons hd tl ih =>
      rw [show hd = (hd.1, hd.2) from rfl] at hs ⊢
      rw [Sorted, List.pairwise_cons] at hs
      rw [insert]
      by_cases h1 : k < hd.1
      · rw [if_pos h1]
        have hk : k ∉ keyList ((hd.1, hd.2) :: tl) := by
          rw [keyList]
          intro hmem
          rcases List.mem_cons.mp hmem with h2 | h2
          · omega
          · rcases List.mem_map.mp h2 with ⟨p, hp, hkp⟩
            have := hs.1 p hp
            omega
        have hsum : sumValues ((k, v) :: (hd.1, hd.2) :: tl)
            = v + sumValues ((hd.1, hd.2) :: tl) := by simp [sumValues]
        rw [hsum, getD_eq_zero_of_not_mem _ _ hk]
        ring
      · rw [if_neg h1]
        by_cases h2 : k = hd.1
        · rw [if_pos h2]
          have hg : getD ((hd.1, hd.2) :: tl) k 0 = hd.2 := by
            rw [getD, find?, if_pos h2]
            rfl
          have hsum : sumValues ((k, v) :: tl) = v + sumValues tl := by simp [sumValues]
          have hsum2 : sumValues ((hd.1, hd.2) :: tl) = hd.2 + sumValues tl := by
            simp [sumValues]
          rw [hsum, hg, hsum2]
          ring
        · rw [if_neg h2]
          have hg : getD ((hd.1, hd.2) :: tl) k 0 = getD tl k 0 := by
            rw [getD, find?, if_neg h2]
            rfl
          have hsum : sumValues ((hd.1, hd.2) :: insert tl k v)
              = hd.2 + sumValues (insert tl k v) := by simp [sumValues]
          have hsum2 : sumValues ((hd.1, hd.2) :: tl) = hd.2 + sumValues tl := by
            simp [sumValues]
          rw [hsum, ih hs.2, hg, hsum2]
          ring

theorem sumValues_erase (m : SMap ℚ) (k : Nat) (hs : Sorted m) :
    sumValues (erase m k) = sumValues m - getD m k 0 := by
  induction m with
  | nil => simp [erase, sumValues, getD, find?]
  | cons hd tl ih =>
      rw [show hd = (hd.1, hd.2) from rfl] at hs ⊢
      rw [Sorted, List.pairwise_cons] at hs
      rw [erase]
      by_cases h1 : k = hd.1
      · rw [if_pos h1]
        have hg : getD ((hd.1, hd.2) :: tl) k 0 = hd.2 := by
          rw [getD, find?, if_pos h1]
          rfl
        have hsum2 : sumValues ((hd.1, hd.2) :: tl) = hd.2 + sumValues tl := by
          simp [sumValues]
        rw [hg, hsum2]
        ring
      · rw [if_neg h1]
        have hg : getD ((hd.1, hd.2) :: tl) k 0 = getD tl k 0 := by
          rw [getD, find?, if_neg h1]
          rfl
        have hsum : sumValues ((hd.1, hd.2) :: erase tl k)
            = hd.2 + sumValues (erase tl k) := by simp [sumValues]
        have hsum2 : sumValues ((hd.1, hd.2) :: tl) = hd.2 + sumValues tl := by
          simp [sumValues]
        rw [hsum, ih hs.2, hg, hsum2]
        ring

theorem insert_append {α : Type} (acc : SMap α) (k : Nat) (v : α)
    (h : ∀ p ∈ acc, p.1 < k) : insert acc k v = acc ++ [(k, v)] := by
  induction acc with
  | nil => simp [insert]
  | cons hd tl ih =>
      rw [show hd = (hd.1, hd.2) from rfl] at h ⊢
      have hhd : hd.1 < k := h (hd.1, hd.2) (List.mem_cons_self _ _)
      rw [insert, if_neg (by omega), if_neg (by omega), List.cons_append]
      rw [ih fun p hp => h p (List.mem_cons_of_mem _ hp)]

theorem foldl_insert_eq_map (g : Nat × ℚ → ℚ) :
    ∀ (m acc : SMap ℚ), (∀ a ∈ acc, ∀ b ∈ m, a.1 < b.1) → Sorted m →
      m.foldl (fun acc2 p => insert acc2 p.1 (g p)) acc
        = acc ++ m.map fun p => (p.1, g p) := by
  intro m
  induction m with
  | nil => intro acc _ _; simp
  | cons hd tl ih =>
      intro acc hlt hs
      rw [Sorted, List.pairwise_cons] at hs
      rw [List.foldl_cons]
      rw [show insert acc hd.1 (g hd) = acc ++ [(hd.1, g hd)] from
        insert_append acc hd.1 (g hd) fun p hp => hlt p hp hd (List.mem_cons_self _ _)]
      rw [ih (acc ++ [(hd.1, g hd)]) ?_ hs.2]
      · simp
      · intro a ha b hb
        rcases List.mem_append.mp ha with h1 | h1
        · exact hlt a h1 b (List.mem_cons_of_mem _ hb)
        · rw [List.mem_singleton.mp h1]
          exact hs.1 b hb

end SMap

/-- C7 — corrected.  The score/seed normalisation of `sr.rs` returns the vector
unchanged when the value sum is zero and otherwise divides every entry by the
sum; the copy in `et.rs` has no zero-sum guard and divides unconditionally. -/
theorem C7_normalise_scores (scores : SMap ℚ) (hs : SMap.Sorted scores) :
    Et.normalise_scores scores
        = (scores.map fun p => (p.1, p.2 / SMap.sumValues scores)) ∧
      (SMap.sumValues scores = 0 → Sr.normalise_scores scores = scores) ∧
      (SMap.sumValues scores ≠ 0 →
        Sr.normalise_scores scores
          = (scores.map fun p => (p.1, p.2 / SMap.sumValues scores))) := by
  refine ⟨?_, ?_, ?_⟩
  · rw [Et.normalise_scores]
    rw [SMap.foldl_insert_eq_map (fun p => p.2 / SMap.sumValues scores) scores []
      (by intro a ha; simp at ha) hs]
    simp
  · intro h0
    rw [Sr.normalise_scores]
    simp [h0]
  · intro h0
    rw [Sr.normalise_scores]
    simp only [if_neg h0]
    rw [SMap.foldl_insert_eq_map (fun p => p.2 / SMap.sumValues scores) scores []
      (by intro a ha; simp at ha) hs]
    simp

unseal Rat.add Rat.sub Rat.mul Rat.inv in
/-- C7 — counterexample to the claim as stated: on `{0 ↦ 1, 1 ↦ -1}` the value
sum is zero, yet the `et.rs` normalisation does not return the vector
unchanged (it divides by the zero sum). -/
theorem C7_counterexample :
    SMap.sumValues [((0 : Nat), (1 : ℚ)), (1, -1)] = 0 ∧
      Et.normalise_scores [((0 : Nat), (1 : ℚ)), (1, -1)]
        ≠ [((0 : Nat), (1 : ℚ)), (1, -1)] := by
  constructor
  · decide
  · decide

unseal Rat.add Rat.sub Rat.mul Rat.inv in
/-- C7 — witness for the sortedness hypothesis of `C7_normalise_scores`. -/
theorem C7_witness :
    SMap.Sorted [((0 : Nat), (2 : ℚ)), (1, 2)] ∧
      (Et.normalise_scores [((0 : Nat), (2 : ℚ)), (1, 2)]
          = ([((0 : Nat), (2 : ℚ)), (1, 2)].map
              fun p => (p.1, p.2 / SMap.sumValues [((0 : Nat), (2 : ℚ)), (1, 2)])) ∧
        (SMap.sumValues [((0 : Nat), (2 : ℚ)), (1, 2)] = 0 →
          Sr.normalise_scores [((0 : Nat), (2 : ℚ)), (1, 2)]
            = [((0 : Nat), (2 : ℚ)), (1, 2)]) ∧
        (SMap.sumValues [((0 : Nat), (2 : ℚ)), (1, 2)] ≠ 0 →
          Sr.normalise_scores [((0 : Nat), (2 : ℚ)), (1, 2)]
            = ([((0 : Nat), (2 : ℚ)), (1, 2)].map
                fun p => (p.1, p.2 / SMap.sumValues [((0 : Nat), (2 : ℚ)), (1, 2)])))) :=
  ⟨by decide, C7_normalise_scores [((0 : Nat), (2 : ℚ)), (1, 2)] (by decide)⟩

/-- The full invariant an operation sequence maintains on `OutboundLocalTrust`:
sorted scores, a cached sum equal to the value sum, and no zero values. -/
theorem applyTrustOps_inv (ops : List TrustOp) :
    ∀ o : OutboundLocalTrust,
      SMap.Sorted o.outbound_trust_scores →
      o.outbound_sum = SMap.sumValues o.outbound_trust_scores →
      (∀ p ∈ o.outbound_trust_scores, p.2 ≠ 0) →
      insValuesNonzero ops = true →
      SMap.Sorted (applyTrustOps o ops).outbound_trust_scores ∧
        (applyTrustOps o ops).outbound_sum
          = SMap.sumValues (applyTrustOps o ops).outbound_trust_scores ∧
        ∀ p ∈ (applyTrustOps o ops).outbound_trust_scores, p.2 ≠ 0 := by
  induction ops with
  | nil => intro o h1 h2 h3 _; exact ⟨h1, h2, h3⟩
  | cons op rest ih =>
      intro o h1 h2 h3 hnz
      rw [show applyTrustOps o (op :: rest) = applyTrustOps (applyTrustOp o op) rest from rfl]
      cases op with
      | ins k v =>
          rw [insValuesNonzero, Bool.and_eq_true, decide_eq_true_eq] at hnz
          refine ih (applyTrustOp o (TrustOp.ins k v)) ?_ ?_ ?_ hnz.2
          · exact SMap.sorted_insert _ k v h1
          · rw [show applyTrustOp o (TrustOp.ins k v) = o.insert k v from rfl,
              OutboundLocalTrust.insert]
            rw [SMap.sumValues_insert _ k v h1, h2]
          · intro p hp
            rcases SMap.mem_insert _ k v p hp with h4 | h4
            · rw [h4]; exact hnz.1
            · exact h3 p h4
      | rem k =>
          rw [insValuesNonzero] at hnz
          refine ih (applyTrustOp o (TrustOp.rem k)) ?_ ?_ ?_ hnz
          · exact SMap.sorted_erase _ k h1
          · rw [show applyTrustOp o (TrustOp.rem k) = o.remove k from rfl,
              OutboundLocalTrust.remove]
            rw [SMap.sumValues_erase _ k h1, h2]
          · intro p hp
            exact h3 p (SMap.mem_erase_subset _ k p hp)

/-- C8 — corrected.  After any sequence of `insert`/`remove` operations whose
inserted values are all nonzero (the discipline of every call site), the cached
`outbound_sum` equals the exact arithmetic sum of `outbound_trust_scores` and
no stored entry has a zero value.  A direct `insert(k, 0.0)` does store a zero
entry (see the counterexample), so the nonzero-insert restriction is needed. -/
theorem C8_outbound_sum_invariant (ops : List TrustOp)
    (hnz : insValuesNonzero ops = true) :
    (applyTrustOps OutboundLocalTrust.new ops).outbound_sum
        = SMap.sumValues (applyTrustOps OutboundLocalTrust.new ops).outbound_trust_scores ∧
      ∀ p ∈ (applyTrustOps OutboundLocalTrust.new ops).outbound_trust_scores, p.2 ≠ 0 := by
  have h := applyTrustOps_inv ops OutboundLocalTrust.new (by simp [OutboundLocalTrust.new, SMap.Sorted])
    (by simp [OutboundLocalTrust.new, SMap.sumValues]) (by simp [OutboundLocalTrust.new]) hnz
  exact ⟨h.2.1, h.2.2⟩

unseal Rat.add Rat.sub Rat.mul Rat.inv in
/-- C8 — counterexample to the claim as stated: the single operation
`insert(0, 0.0)` leaves the zero-valued entry `(0, 0)` stored, violating the
no-zero-entries half of the claimed invariant. -/
theorem C8_counterexample :
    ((0 : Nat), (0 : ℚ))
      ∈ (applyTrustOps OutboundLocalTrust.new [TrustOp.ins 0 0]).outbound_trust_scores := by
  decide

unseal Rat.add Rat.sub Rat.mul Rat.inv in
/-- C8 — witness for `C8_outbound_sum_invariant` on a concrete sequence. -/
theorem C8_witness :
    insValuesNonzero [TrustOp.ins 0 2, TrustOp.ins 1 3, TrustOp.rem 0] = true ∧
      ((applyTrustOps OutboundLocalTrust.new
            [TrustOp.ins 0 2, TrustOp.ins 1 3, TrustOp.rem 0]).outbound_sum
          = SMap.sumValues (applyTrustOps OutboundLocalTrust.new
              [TrustOp.ins 0 2, TrustOp.ins 1 3, TrustOp.rem 0]).outbound_trust_scores ∧
        ∀ p ∈ (applyTrustOps OutboundLocalTrust.new
            [TrustOp.ins 0 2, TrustOp.ins 1 3, TrustOp.rem 0]).outbound_trust_scores,
          p.2 ≠ 0) :=
  ⟨by decide, C8_outbound_sum_invariant [TrustOp.ins 0 2, TrustOp.ins 1 3, TrustOp.rem 0]
    (by decide)⟩

/-- The convergence branch of the run loop: whatever scores the loop reaches a
`some` result from, that result is an `n+1` vector whose following `n+2`
vector passed `is_converged`. -/
theorem positive_run_loop_converged (lt : SMap OutboundLocalTrust) (seed : SMap ℚ) :
    ∀ (fuel : Nat) (scores x : SMap ℚ),
      Et.positive_run_loop lt seed fuel scores = some x →
      (Et.is_converged x (Et.normalise_scores (Et.iteration lt seed x))).1 = true := by
  intro fuel
  induction fuel with
  | zero =>
      intro scores x h
      exact absurd h (by simp [Et.positive_run_loop])
  | succ n ih =>
      intro scores x h
      simp only [Et.positive_run_loop] at h
      split at h
      · rename_i hc
        rw [← Option.some.inj h]
        exact hc
      · exact ih _ x h

/-- C5 — confirmed.  If `positive_run` terminates through its convergence
branch and returns `x`, then `convergence_check` on the same
`(lt, seed, count)` accepts `x`: both sides pre-process and normalise the same
inputs the same way, and the check recomputes exactly the `n+2` iteration whose
delta fired the convergence branch. -/
theorem C5_convergence_check_agreement (lt : SMap OutboundLocalTrust) (seed : SMap ℚ)
    (count fuel : Nat) (x : SMap ℚ)
    (h : Et.positive_run lt seed count fuel = some x) :
    Et.convergence_check lt seed x count = true := by
  simp only [Et.positive_run] at h
  simp only [Et.convergence_check]
  exact positive_run_loop_converged _ _ fuel _ x h

unseal Rat.add Rat.sub Rat.mul Rat.inv in
/-- C5 — witness: a one-node self-trusting graph converges in one step, and
`convergence_check` accepts the returned vector. -/
theorem C5_witness :
    Et.positive_run [(0, OutboundLocalTrust.from_score_map [(0, 1)])]
          [((0 : Nat), (1 : ℚ))] 1 1
        = some [((0 : Nat), (1 : ℚ))] ∧
      Et.convergence_check [(0, OutboundLocalTrust.from_score_map [(0, 1)])]
        [((0 : Nat), (1 : ℚ))] [((0 : Nat), (1 : ℚ))] 1 = true :=
  ⟨by decide, C5_convergence_check_agreement _ _ 1 1 _ (by decide)⟩

theorem propagateRow_getD (o : ℚ) (i : Nat) :
    ∀ (row : SMap ℚ) (acc : SMap ℚ), SMap.Sorted row →
      SMap.getD (Et.propagateRow acc row o) i 0
        = SMap.getD acc i 0 + SMap.getD row i 0 * o := by
  intro row
  induction row with
  | nil =>
      intro acc _
      simp [Et.propagateRow, SMap.getD, SMap.find?]
  | cons hd tl ih =>
      intro acc hs
      rw [show hd = (hd.1, hd.2) from rfl] at hs ⊢
      rw [SMap.Sorted, List.pairwise_cons] at hs
      rw [show Et.propagateRow acc ((hd.1, hd.2) :: tl) o
          = Et.propagateRow (SMap.insert acc hd.1 (SMap.getD acc hd.1 0 + hd.2 * o)) tl o
        from rfl]
      rw [ih _ hs.2]
      by_cases hik : i = hd.1
      · rw [hik]
        have htl : SMap.getD tl hd.1 0 = 0 := by
          apply SMap.getD_eq_zero_of_not_mem
          intro hmem
          rcases List.mem_map.mp hmem with ⟨p, hp, hkp⟩
          have := hs.1 p hp
          omega
        rw [SMap.getD_insert_self, htl]
        have hhd : SMap.getD ((hd.1, hd.2) :: tl) hd.1 0 = hd.2 := by
          rw [SMap.getD, SMap.find?, if_pos rfl]
          rfl
        rw [hhd]
        ring
      · rw [SMap.getD_insert_ne _ _ _ _ hik]
        have : SMap.getD ((hd.1, hd.2) :: tl) i 0 = SMap.getD tl i 0 := by
          rw [SMap.getD, SMap.find?, if_neg hik]
          rfl
        rw [this]

theorem propagateRow_isSome (o : ℚ) (i : Nat) :
    ∀ (row : SMap ℚ) (acc : SMap ℚ),
      (SMap.find? (Et.propagateRow acc row o) i).isSome
        ↔ (SMap.find? acc i).isSome ∨ i ∈ SMap.keyList row := by
  intro row
  induction row with
  | nil =>
      intro acc
      simp [Et.propagateRow, SMap.keyList]
  | cons hd tl ih =>
      intro acc
      rw [show hd = (hd.1, hd.2) from rfl]
      rw [show Et.propagateRow acc ((hd.1, hd.2) :: tl) o
          = Et.propagateRow (SMap.insert acc hd.1 (SMap.getD acc hd.1 0 + hd.2 * o)) tl o
        from rfl]
      rw [ih]
      rw [show SMap.keyList ((hd.1, hd.2) :: tl) = hd.1 :: SMap.keyList tl from rfl]
      by_cases hik : i = hd.1
      · rw [hik, SMap.find?_insert_self]
        simp
      · rw [SMap.find?_insert_ne _ _ _ _ hik]
        simp only [List.mem_cons]
        constructor
        · intro h
          rcases h with h | h
          · exact Or.inl h
          · exact Or.inr (Or.inr h)
        · intro h
          rcases h with h | h
          · exact Or.inl h
          · rcases h with h | h
            · exact absurd h hik
            · exact Or.inr h

theorem propagate_fold_getD (scores : SMap ℚ) (i : Nat) :
    ∀ (lt : SMap OutboundLocalTrust) (acc : SMap ℚ),
      (∀ p ∈ lt, SMap.Sorted p.2.outbound_trust_scores) →
      SMap.getD (lt.foldl (fun acc2 p =>
          Et.propagateRow acc2 p.2.outbound_trust_scores (SMap.getD scores p.1 0)) acc) i 0
        = SMap.getD acc i 0 + Et.ySumSpec lt scores i := by
  intro lt
  induction lt with
  | nil =>
      intro acc _
      simp [Et.ySumSpec]
  | cons hd tl ih =>
      intro acc hrows
      rw [List.foldl_cons]
      rw [ih _ fun p hp => hrows p (List.mem_cons_of_mem _ hp)]
      rw [propagateRow_getD _ _ _ _ (hrows hd (List.mem_cons_self _ _))]
      rw [show Et.ySumSpec (hd :: tl) scores i
          = SMap.getD hd.2.outbound_trust_scores i 0 * SMap.getD scores hd.1 0
            + Et.ySumSpec tl scores i from by simp [Et.ySumSpec]]
      ring

theorem propagate_fold_isSome (scores : SMap ℚ) (i : Nat) :
    ∀ (lt : SMap OutboundLocalTrust) (acc : SMap ℚ),
      (SMap.find? (lt.foldl (fun acc2 p =>
          Et.propagateRow acc2 p.2.outbound_trust_scores (SMap.getD scores p.1 0)) acc) i).isSome
        ↔ (SMap.find? acc i).isSome ∨ i ∈ Et.ltTargets lt := by
  intro lt
  induction lt with
  | nil =>
      intro acc
      simp [Et.ltTargets]
  | cons hd tl ih =>
      intro acc
      rw [List.foldl_cons, ih, propagateRow_isSome]
      rw [show Et.ltTargets (hd :: tl)
          = hd.2.outbound_trust_scores.map Prod.fst ++ Et.ltTargets tl from by
        simp [Et.ltTargets]]
      rw [show SMap.keyList hd.2.outbound_trust_scores
          = hd.2.outbound_trust_scores.map Prod.fst from rfl]
      simp only [List.mem_append]
      tauto

theorem find?_map_blend (g : Nat → ℚ → ℚ) (i : Nat) :
    ∀ m : SMap ℚ,
      SMap.find? (m.map fun p => (p.1, g p.1 p.2)) i = (SMap.find? m i).map (g i) := by
  intro m
  induction m with
  | nil => simp [SMap.find?]
  | cons hd tl ih =>
      rw [show hd = (hd.1, hd.2) from rfl, List.map_cons, SMap.find?, SMap.find?]
      by_cases hik : i = hd.1
      · rw [if_pos hik, if_pos hik, hik]
        rfl
      · rw [if_neg hik, if_neg hik]
        exact ih

/-- C6 — corrected.  One iteration step produces the map whose key set is
exactly the set of `to`-targets of `lt`: a key `i` with at least one inbound
edge gets `PRE_TRUST_WEIGHT · s[i] + y[i] · (1 - PRE_TRUST_WEIGHT)` with
`y[to] = Σ_from x[from] · L[from][to]`; a key with no inbound edge — even one
with a nonzero seed — is absent from the result (implicitly zero), because the
blend loop walks only the propagated map. -/
theorem C6_iteration_blend (lt : SMap OutboundLocalTrust) (seed scores : SMap ℚ) (i : Nat)
    (hrows : ∀ p ∈ lt, SMap.Sorted p.2.outbound_trust_scores) :
    SMap.find? (Et.iteration lt seed scores) i
      = if i ∈ Et.ltTargets lt
        then some (Et.PRE_TRUST_WEIGHT * SMap.getD seed i 0
          + Et.ySumSpec lt scores i * (1 - Et.PRE_TRUST_WEIGHT))
        else none := by
  rw [show Et.iteration lt seed scores
      = (Et.propagate lt scores).map fun p =>
          (p.1, Et.PRE_TRUST_WEIGHT * SMap.getD seed p.1 0
            + p.2 * (1 - Et.PRE_TRUST_WEIGHT)) from rfl]
  rw [find?_map_blend (fun k v =>
    Et.PRE_TRUST_WEIGHT * SMap.getD seed k 0 + v * (1 - Et.PRE_TRUST_WEIGHT)) i]
  by_cases hmem : i ∈ Et.ltTargets lt
  · rw [if_pos hmem]
    have hsome : (SMap.find? (Et.propagate lt scores) i).isSome := by
      rw [Et.propagate, propagate_fold_isSome]
      exact Or.inr hmem
    rcases Option.isSome_iff_exists.mp hsome with ⟨y, hy⟩
    have hval : y = Et.ySumSpec lt scores i := by
      have h1 := propagate_fold_getD scores i lt [] hrows
      rw [show Et.propagate lt scores = lt.foldl (fun acc2 p =>
          Et.propagateRow acc2 p.2.outbound_trust_scores (SMap.getD scores p.1 0)) [] from rfl]
        at hy
      rw [SMap.getD, hy] at h1
      rw [show SMap.getD ([] : SMap ℚ) i 0 = 0 from rfl] at h1
      rw [show (some y).getD 0 = y from rfl] at h1
      rw [zero_add] at h1
      exact h1
    rw [hy, hval]
    rfl
  · rw [if_neg hmem]
    have hnone : SMap.find? (Et.propagate lt scores) i = none := by
      cases hf : SMap.find? (Et.propagate lt scores) i with
      | none => rfl
      | some v =>
          have hf2 : SMap.find? (lt.foldl (fun acc2 p =>
              Et.propagateRow acc2 p.2.outbound_trust_scores (SMap.getD scores p.1 0)) []) i
              = some v := hf
          have hs2 : (SMap.find? (lt.foldl (fun acc2 p =>
              Et.propagateRow acc2 p.2.outbound_trust_scores
                (SMap.getD scores p.1 0)) []) i).isSome := by
            rw [hf2]
            rfl
          rcases (propagate_fold_isSome scores i lt []).mp hs2 with h2 | h2
          · exact absurd h2 (by simp [SMap.find?])
          · exact absurd h2 hmem
    rw [hnone]
    rfl

unseal Rat.add Rat.sub Rat.mul Rat.inv in
/-- C6 — counterexample to the claim as stated: in the normalized two-node
graph `0 → 1`, `1 → 1` with seed and scores `{0 ↦ 1}`, node `0` has a nonzero
seed but no inbound edge, and one iteration drops it entirely (value 0) even
though the claimed formula gives `1/2` there. -/
theorem C6_counterexample :
    Et.normalise_lt [(0, OutboundLocalTrust.mk [(1, 1)] 1), (1, OutboundLocalTrust.mk [(1, 1)] 1)]
        = [(0, OutboundLocalTrust.mk [(1, 1)] 1), (1, OutboundLocalTrust.mk [(1, 1)] 1)] ∧
      Et.normalise_scores [((0 : Nat), (1 : ℚ))] = [((0 : Nat), (1 : ℚ))] ∧
      SMap.find? (Et.iteration
          [(0, OutboundLocalTrust.mk [(1, 1)] 1), (1, OutboundLocalTrust.mk [(1, 1)] 1)]
          [((0 : Nat), (1 : ℚ))] [((0 : Nat), (1 : ℚ))]) 0 = none ∧
      SMap.getD (Et.iteration
          [(0, OutboundLocalTrust.mk [(1, 1)] 1), (1, OutboundLocalTrust.mk [(1, 1)] 1)]
          [((0 : Nat), (1 : ℚ))] [((0 : Nat), (1 : ℚ))]) 0 0
        ≠ Et.PRE_TRUST_WEIGHT * SMap.getD [((0 : Nat), (1 : ℚ))] 0 0
          + Et.ySumSpec
              [(0, OutboundLocalTrust.mk [(1, 1)] 1), (1, OutboundLocalTrust.mk [(1, 1)] 1)]
              [((0 : Nat), (1 : ℚ))] 0 * (1 - Et.PRE_TRUST_WEIGHT) := by
  refine ⟨by decide, by decide, by decide, by decide⟩

unseal Rat.add Rat.sub Rat.mul Rat.inv in
/-- C6 — witness for the row-sortedness hypothesis of `C6_iteration_blend`. -/
theorem C6_witness :
    (∀ p ∈ [((0 : Nat), OutboundLocalTrust.mk [(1, 1)] 1),
        (1, OutboundLocalTrust.mk [(1, 1)] 1)], SMap.Sorted p.2.outbound_trust_scores) ∧
      SMap.find? (Et.iteration
          [(0, OutboundLocalTrust.mk [(1, 1)] 1), (1, OutboundLocalTrust.mk [(1, 1)] 1)]
          [((0 : Nat), (1 : ℚ))] [((0 : Nat), (1 : ℚ))]) 1
        = (if 1 ∈ Et.ltTargets
              [(0, OutboundLocalTrust.mk [(1, 1)] 1), (1, OutboundLocalTrust.mk [(1, 1)] 1)]
          then some (Et.PRE_TRUST_WEIGHT * SMap.getD [((0 : Nat), (1 : ℚ))] 1 0
            + Et.ySumSpec
                [(0, OutboundLocalTrust.mk [(1, 1)] 1), (1, OutboundLocalTrust.mk [(1, 1)] 1)]
                [((0 : Nat), (1 : ℚ))] 1 * (1 - Et.PRE_TRUST_WEIGHT))
          else none) :=
  ⟨by decide, C6_iteration_blend
    [(0, OutboundLocalTrust.mk [(1, 1)] 1), (1, OutboundLocalTrust.mk [(1, 1)] 1)]
    [((0 : Nat), (1 : ℚ))] [((0 : Nat), (1 : ℚ))] 1 (by decide)⟩

/-- C1 — corrected.  For the tree over two leaves `num_levels` is the bit
length of 2, namely 2, so the tree carries one extra level above the natural
two-leaf root: the root is `keccak(keccak(H1 || H2) || keccak(0³² || 0³²))`,
the path for leaf 0 is `[H2, keccak(0³² || 0³²)]`, and `verify_path` accepts
exactly that two-element path against that root. -/
theorem C1_two_leaf_meta_tree (h1 h2 : Merkle.Hash) :
    (Merkle.DenseMerkleTree.new [h1, h2]).root
        = .ok (Merkle.hashTwo (Merkle.hashTwo h1 h2)
            (Merkle.hashTwo Merkle.zeroHash Merkle.zeroHash)) ∧
      (Merkle.DenseMerkleTree.new [h1, h2]).generatePath 0
        = .ok [h2, Merkle.hashTwo Merkle.zeroHash Merkle.zeroHash] ∧
      Merkle.DenseMerkleTree.verifyPath h1 0
        [h2, Merkle.hashTwo Merkle.zeroHash Merkle.zeroHash]
        (Merkle.hashTwo (Merkle.hashTwo h1 h2)
          (Merkle.hashTwo Merkle.zeroHash Merkle.zeroHash)) = true := by
  refine ⟨by with_unfolding_all rfl, by with_unfolding_all rfl, ?_⟩
  simp [Merkle.DenseMerkleTree.verifyPath, Merkle.DenseMerkleTree.verifyPathAux]

/-- C1 — counterexample to the claim as stated, at the concrete leaves
`H1 = 0x0101…01`, `H2 = 0x0202…02`: the root is not `keccak(H1 || H2)`, the
generated path is not the single-element `[H2]`, and
`verify_path(H1, 0, [H2], root)` is false. -/
theorem C1_counterexample :
    (Merkle.DenseMerkleTree.new [List.replicate 32 1, List.replicate 32 2]).root
        ≠ .ok (Merkle.hashTwo (List.replicate 32 1) (List.replicate 32 2)) ∧
      (Merkle.DenseMerkleTree.new [List.replicate 32 1, List.replicate 32 2]).generatePath 0
        ≠ .ok [List.replicate 32 2] ∧
      Merkle.DenseMerkleTree.verifyPath (List.replicate 32 1) 0 [List.replicate 32 2]
        (Merkle.hashTwo (Merkle.hashTwo (List.replicate 32 1) (List.replicate 32 2))
          (Merkle.hashTwo Merkle.zeroHash Merkle.zeroHash)) = false := by
  refine ⟨by decide, ?_, by decide⟩
  intro h
  have hg : (Merkle.DenseMerkleTree.new
        [List.replicate 32 1, List.replicate 32 2]).generatePath 0
      = .ok [List.replicate 32 2, Merkle.hashTwo Merkle.zeroHash Merkle.zeroHash] := by
    with_unfolding_all rfl
  have h2 := Except.ok.inj (hg.symm.trans h)
  exact absurd (congrArg List.length h2) (by decide)

theorem list_getD_of_get? {α : Type} :
    ∀ (l : List α) (n : Nat) (x z : α), l.get? n = some x → l.getD n z = x := by
  intro l
  induction l with
  | nil => intro n x z h; simp [List.get?] at h
  | cons hd tl ih =>
      intro n x z h
      cases n with
      | zero =>
          rw [List.get?] at h
          simp [List.getD]
          exact Option.some.inj h
      | succ n =>
          rw [List.get?] at h
          rw [List.getD_cons_succ]
          exact ih n x z h

theorem list_headD_eq_getD {α : Type} (l : List α) (z : α) : l.headD z = l.getD 0 z := by
  cases l <;> rfl

theorem npotAux_ge (n : Nat) :
    ∀ (fuel p : Nat), 0 < p → n ≤ 2 ^ fuel * p → n ≤ Merkle.npotAux n fuel p := by
  intro fuel
  induction fuel with
  | zero =>
      intro p _ h
      rw [Merkle.npotAux]
      simpa using h
  | succ f ih =>
      intro p hp h
      rw [Merkle.npotAux]
      by_cases hnp : n ≤ p
      · rw [if_pos hnp]; exact hnp
      · rw [if_neg hnp]
        apply ih (2 * p) (by omega)
        calc n ≤ 2 ^ (f + 1) * p := h
          _ = 2 ^ f * (2 * p) := by ring

theorem nextPowerOfTwo_ge (n : Nat) : n ≤ Merkle.nextPowerOfTwo n :=
  npotAux_ge n n 1 (by omega) (by simpa using Nat.le_of_lt (Nat.lt_two_pow n))

theorem npotAux_pow (n : Nat) :
    ∀ (fuel p : Nat), (∃ j, p = 2 ^ j) → ∃ m, Merkle.npotAux n fuel p = 2 ^ m := by
  intro fuel
  induction fuel with
  | zero =>
      intro p hp
      rw [Merkle.npotAux]
      exact hp
  | succ f ih =>
      intro p hp
      rw [Merkle.npotAux]
      by_cases hnp : n ≤ p
      · rw [if_pos hnp]; exact hp
      · rw [if_neg hnp]
        apply ih
        rcases hp with ⟨j, rfl⟩
        exact ⟨j + 1, by rw [pow_succ]; ring⟩

theorem nextPowerOfTwo_pow (n : Nat) : ∃ m, Merkle.nextPowerOfTwo n = 2 ^ m :=
  npotAux_pow n n 1 ⟨0, rfl⟩

theorem bitLenAux_zero : ∀ fuel, Merkle.bitLenAux fuel 0 = 0 := by
  intro fuel
  cases fuel with
  | zero => rfl
  | succ f => rw [Merkle.bitLenAux]; simp

theorem bitLenAux_two_pow :
    ∀ (m fuel : Nat), m < fuel → Merkle.bitLenAux fuel (2 ^ m) = m + 1 := by
  intro m
  induction m with
  | zero =>
      intro fuel hf
      cases fuel with
      | zero => omega
      | succ f =>
          rw [Merkle.bitLenAux, if_neg (by omega)]
          rw [show (2 : Nat) ^ 0 / 2 = 0 from rfl, bitLenAux_zero]
  | succ m ih =>
      intro fuel hf
      cases fuel with
      | zero => omega
      | succ f =>
          rw [Merkle.bitLenAux, if_neg (by simp)]
          rw [show (2 : Nat) ^ (m + 1) / 2 = 2 ^ m from by
            rw [pow_succ]; exact Nat.mul_div_cancel _ (by omega)]
          rw [ih f (by omega)]

theorem bitLen_two_pow (m : Nat) : Merkle.bitLen (2 ^ m) = m + 1 :=
  bitLenAux_two_pow m (2 ^ m) (Nat.lt_two_pow m)

theorem buildFrom_get? (defaults : List Merkle.Hash) :
    ∀ (steps i : Nat) (cur : List Merkle.Hash) (j : Nat), j ≤ steps →
      (Merkle.buildFrom defaults i steps cur).get? j
        = some (Merkle.DenseMerkleTree.buildIter defaults i j cur) := by
  intro steps
  induction steps with
  | zero =>
      intro i cur j hj
      cases j with
      | zero => rfl
      | succ j => omega
  | succ s ih =>
      intro i cur j hj
      cases j with
      | zero => rfl
      | succ j => exact ih (i + 1) _ j (by omega)

theorem buildLevel_length (d : Merkle.Hash) :
    ∀ l : List Merkle.Hash,
      (Merkle.buildLevel d l).length = (l.length + 1) / 2
  | [] => by simp [Merkle.buildLevel]
  | [_] => by simp [Merkle.buildLevel]
  | a :: b :: rest => by
      rw [show Merkle.buildLevel d (a :: b :: rest)
          = Merkle.hashTwo a b :: Merkle.buildLevel d rest from rfl]
      rw [List.length_cons, buildLevel_length d rest]
      simp only [List.length_cons]
      omega

theorem buildLevel_get? (d : Merkle.Hash) :
    ∀ (l : List Merkle.Hash) (j : Nat), j < l.length →
      (Merkle.buildLevel d l).get? (j / 2)
        = some (if j % 2 == 0
            then Merkle.hashTwo (l.getD j Merkle.zeroHash)
              (if j + 1 < l.length then l.getD (j + 1) Merkle.zeroHash else d)
            else Merkle.hashTwo (l.getD (j - 1) Merkle.zeroHash) (l.getD j Merkle.zeroHash))
  | [], j, h => absurd h (by simp)
  | [a], 0, _ => by
      rw [show Merkle.buildLevel d [a] = [Merkle.hashTwo a d] from rfl]
      simp
  | [a], j + 1, h => by
      exfalso
      have hl : ([a] : List Merkle.Hash).length = 1 := rfl
      omega
  | a :: b :: rest, 0, _ => by
      rw [show Merkle.buildLevel d (a :: b :: rest)
          = Merkle.hashTwo a b :: Merkle.buildLevel d rest from rfl]
      have hlt : 0 + 1 < (a :: b :: rest).length := by
        simp only [List.length_cons]
        omega
      rw [if_pos (show (0 % 2 == 0) = true from rfl), if_pos hlt]
      rfl
  | a :: b :: rest, 1, _ => by
      rw [show Merkle.buildLevel d (a :: b :: rest)
          = Merkle.hashTwo a b :: Merkle.buildLevel d rest from rfl]
      rfl
  | a :: b :: rest, j + 2, h => by
      have hlen : (a :: b :: rest).length = rest.length + 2 := by
        simp only [List.length_cons]
      have hrec := buildLevel_get? d rest j (by omega)
      rw [show Merkle.buildLevel d (a :: b :: rest)
          = Merkle.hashTwo a b :: Merkle.buildLevel d rest from rfl]
      rw [show (j + 2) / 2 = j / 2 + 1 from by omega]
      rw [show (Merkle.hashTwo a b :: Merkle.buildLevel d rest).get? (j / 2 + 1)
          = (Merkle.buildLevel d rest).get? (j / 2) from rfl]
      rw [hrec]
      simp only [show j % 2 = (j + 2) % 2 from by omega]
      by_cases hpar : ((j + 2) % 2 == 0) = true
      · rw [if_pos hpar, if_pos hpar]
        rw [show (a :: b :: rest).getD (j + 2) Merkle.zeroHash = rest.getD j Merkle.zeroHash
          from rfl]
        simp only [show (j + 2 + 1 < (a :: b :: rest).length) = (j + 1 < rest.length) from by
          rw [hlen]; exact propext (by omega)]
        by_cases hnext : j + 1 < rest.length
        · rw [if_pos hnext, if_pos hnext]
          rw [show (a :: b :: rest).getD (j + 2 + 1) Merkle.zeroHash
              = rest.getD (j + 1) Merkle.zeroHash from rfl]
        · rw [if_neg hnext, if_neg hnext]
      · rw [if_neg hpar, if_neg hpar]
        have hj1 : 1 ≤ j := by
          by_contra hc
          have hz : j = 0 := by omega
          rw [hz] at hpar
          exact hpar rfl
        rw [show j + 2 - 1 = (j - 1) + 2 from by omega]
        rw [show (a :: b :: rest).getD ((j - 1) + 2) Merkle.zeroHash
            = rest.getD (j - 1) Merkle.zeroHash from rfl]
        rw [show (a :: b :: rest).getD (j + 2) Merkle.zeroHash
            = rest.getD j Merkle.zeroHash from rfl]

theorem generatePathAux_verify (nodes : List (List Merkle.Hash))
    (defaults : List Merkle.Hash) :
    ∀ (steps level curIdx : Nat) (cur : List Merkle.Hash),
      curIdx < cur.length →
      (∀ j, j ≤ steps → nodes.get? (level + j)
          = some (Merkle.DenseMerkleTree.buildIter defaults level j cur)) →
      ∃ path,
        Merkle.DenseMerkleTree.generatePathAux nodes defaults level curIdx steps
          = .ok path ∧
        Merkle.DenseMerkleTree.verifyPathAux (cur.getD curIdx Merkle.zeroHash) curIdx path
          = (Merkle.DenseMerkleTree.buildIter defaults level steps cur).getD
              (curIdx / 2 ^ steps) Merkle.zeroHash := by
  intro steps
  induction steps with
  | zero =>
      intro level curIdx cur hidx H
      refine ⟨[], rfl, ?_⟩
      rw [show Merkle.DenseMerkleTree.verifyPathAux (cur.getD curIdx Merkle.zeroHash) curIdx []
          = cur.getD curIdx Merkle.zeroHash from rfl]
      rw [show Merkle.DenseMerkleTree.buildIter defaults level 0 cur = cur from rfl]
      rw [pow_zero, Nat.div_one]
  | succ s ih =>
      intro level curIdx cur hidx H
      have hget : nodes.get? level = some cur := by
        have h0 := H 0 (Nat.zero_le _)
        rw [Nat.add_zero] at h0
        exact h0
      have hidx' : curIdx / 2
          < (Merkle.buildLevel (defaults.getD level Merkle.zeroHash) cur).length := by
        rw [buildLevel_length]
        omega
      have H2 : ∀ j, j ≤ s → nodes.get? (level + 1 + j)
          = some (Merkle.DenseMerkleTree.buildIter defaults (level + 1) j
              (Merkle.buildLevel (defaults.getD level Merkle.zeroHash) cur)) := by
        intro j hj
        have hj1 := H (j + 1) (by omega)
        rw [show level + (j + 1) = level + 1 + j from by omega] at hj1
        exact hj1
      obtain ⟨path, hgen, hver⟩ := ih (level + 1) (curIdx / 2)
        (Merkle.buildLevel (defaults.getD level Merkle.zeroHash) cur) hidx' H2
      refine ⟨(if (if curIdx % 2 == 0 then curIdx + 1 else curIdx - 1) < cur.length
            then cur.getD (if curIdx % 2 == 0 then curIdx + 1 else curIdx - 1) Merkle.zeroHash
            else defaults.getD level Merkle.zeroHash) :: path, ?_, ?_⟩
      · simp only [Merkle.DenseMerkleTree.generatePathAux, hget, hgen]
      · rw [show Merkle.DenseMerkleTree.verifyPathAux (cur.getD curIdx Merkle.zeroHash) curIdx
            ((if (if curIdx % 2 == 0 then curIdx + 1 else curIdx - 1) < cur.length
              then cur.getD (if curIdx % 2 == 0 then curIdx + 1 else curIdx - 1) Merkle.zeroHash
              else defaults.getD level Merkle.zeroHash) :: path)
            = Merkle.DenseMerkleTree.verifyPathAux
                (if curIdx % 2 == 0
                  then Merkle.hashTwo (cur.getD curIdx Merkle.zeroHash)
                    (if (if curIdx % 2 == 0 then curIdx + 1 else curIdx - 1) < cur.length
                      then cur.getD (if curIdx % 2 == 0 then curIdx + 1 else curIdx - 1)
                        Merkle.zeroHash
                      else defaults.getD level Merkle.zeroHash)
                  else Merkle.hashTwo
                    (if (if curIdx % 2 == 0 then curIdx + 1 else curIdx - 1) < cur.length
                      then cur.getD (if curIdx % 2 == 0 then curIdx + 1 else curIdx - 1)
                        Merkle.zeroHash
                      else defaults.getD level Merkle.zeroHash)
                    (cur.getD curIdx Merkle.zeroHash))
                (curIdx / 2) path from rfl]
        rw [show Merkle.DenseMerkleTree.buildIter defaults level (s + 1) cur
            = Merkle.DenseMerkleTree.buildIter defaults (level + 1) s
                (Merkle.buildLevel (defaults.getD level Merkle.zeroHash) cur) from rfl]
        rw [show (2 : Nat) ^ (s + 1) = 2 * 2 ^ s from by ring]
        rw [← Nat.div_div_eq_div_mul]
        have hgetD := list_getD_of_get? _ _ _ Merkle.zeroHash
          (buildLevel_get? (defaults.getD level Merkle.zeroHash) cur curIdx hidx)
        have hcomb : (if curIdx % 2 == 0
              then Merkle.hashTwo (cur.getD curIdx Merkle.zeroHash)
                (if (if curIdx % 2 == 0 then curIdx + 1 else curIdx - 1) < cur.length
                  then cur.getD (if curIdx % 2 == 0 then curIdx + 1 else curIdx - 1)
                    Merkle.zeroHash
                  else defaults.getD level Merkle.zeroHash)
              else Merkle.hashTwo
                (if (if curIdx % 2 == 0 then curIdx + 1 else curIdx - 1) < cur.length
                  then cur.getD (if curIdx % 2 == 0 then curIdx + 1 else curIdx - 1)
                    Merkle.zeroHash
                  else defaults.getD level Merkle.zeroHash)
                (cur.getD curIdx Merkle.zeroHash))
            = (Merkle.buildLevel (defaults.getD level Merkle.zeroHash) cur).getD (curIdx / 2)
                Merkle.zeroHash := by
          rw [hgetD]
          by_cases hpar : (curIdx % 2 == 0) = true
          · simp only [if_pos hpar]
          · simp only [if_neg hpar]
            rw [if_pos (show curIdx - 1 < cur.length from by omega)]
        rw [hcomb]
        exact hver

theorem new_components (leaves : List Merkle.Hash) :
    Merkle.DenseMerkleTree.new leaves
      = { nodes := Merkle.buildFrom
            (Merkle.defaultsList (Merkle.bitLen (Merkle.nextPowerOfTwo leaves.length))) 0
            (Merkle.bitLen (Merkle.nextPowerOfTwo leaves.length))
            (Merkle.DenseMerkleTree.paddedLeaves leaves)
          numLevels := Merkle.bitLen (Merkle.nextPowerOfTwo leaves.length)
          defaults := Merkle.defaultsList
            (Merkle.bitLen (Merkle.nextPowerOfTwo leaves.length)) } := by
  with_unfolding_all rfl

theorem dense_round_trip (dfs : List Merkle.Hash) (nL m : Nat)
    (padded : List Merkle.Hash) (k : Nat)
    (hnl : nL = m + 1) (hk : k < padded.length) (hplen : padded.length ≤ 2 ^ m) :
    ∃ path,
      Merkle.DenseMerkleTree.generatePath
        { nodes := Merkle.buildFrom dfs 0 nL padded, numLevels := nL, defaults := dfs } k
        = .ok path ∧
      Merkle.DenseMerkleTree.root
        { nodes := Merkle.buildFrom dfs 0 nL padded, numLevels := nL, defaults := dfs }
        = .ok ((Merkle.DenseMerkleTree.buildIter dfs 0 nL padded).getD 0 Merkle.zeroHash) ∧
      Merkle.DenseMerkleTree.verifyPathAux (padded.getD k Merkle.zeroHash) k path
        = (Merkle.DenseMerkleTree.buildIter dfs 0 nL padded).getD 0 Merkle.zeroHash := by
  have H : ∀ j, j ≤ nL → (Merkle.buildFrom dfs 0 nL padded).get? (0 + j)
      = some (Merkle.DenseMerkleTree.buildIter dfs 0 j padded) := by
    intro j hj
    rw [Nat.zero_add]
    exact buildFrom_get? dfs nL 0 padded j hj
  obtain ⟨path, hgen, hver⟩ := generatePathAux_verify
    (Merkle.buildFrom dfs 0 nL padded) dfs nL 0 k padded hk H
  have h0 : (Merkle.buildFrom dfs 0 nL padded).get? 0 = some padded := by
    have := H 0 (Nat.zero_le _)
    rw [Nat.zero_add] at this
    exact this
  have hroot_get : (Merkle.buildFrom dfs 0 nL padded).get? nL
      = some (Merkle.DenseMerkleTree.buildIter dfs 0 nL padded) := by
    have := H nL le_rfl
    rw [Nat.zero_add] at this
    exact this
  refine ⟨path, ?_, ?_, ?_⟩
  · simp only [Merkle.DenseMerkleTree.generatePath, h0]
    rw [if_neg (show ¬ (padded.length ≤ k) from by omega)]
    exact hgen
  · simp only [Merkle.DenseMerkleTree.root, hroot_get]
    rw [list_headD_eq_getD]
  · rw [hver]
    have hz : k / 2 ^ nL = 0 := by
      apply Nat.div_eq_of_lt
      calc k < padded.length := hk
        _ ≤ 2 ^ m := hplen
        _ ≤ 2 ^ nL := Nat.pow_le_pow_right (by omega) (by omega)
    rw [hz]

/-- C2: the Merkle round trip `verify_path(leaf[k], k, generate_path(k), root())`
succeeds for every leaf count `n` and every index `k < 2^ceil(log2 n)` (over the
zero-padded leaf vector that `new` stores at level 0), and replacing the expected
root with any other value makes `verify_path` return false.  The further part of
the claim — that a different leaf or a different index also always fails — is
refuted by `C2_counterexample`. -/
theorem C2_merkle_round_trip (leaves : List Merkle.Hash) (k : Nat)
    (hk : k < Merkle.nextPowerOfTwo leaves.length) :
    ∃ path r,
      (Merkle.DenseMerkleTree.new leaves).generatePath k = .ok path ∧
      (Merkle.DenseMerkleTree.new leaves).root = .ok r ∧
      Merkle.DenseMerkleTree.verifyPath
        ((Merkle.DenseMerkleTree.paddedLeaves leaves).getD k Merkle.zeroHash) k path r
        = true ∧
      ∀ r2, r2 ≠ r →
        Merkle.DenseMerkleTree.verifyPath
          ((Merkle.DenseMerkleTree.paddedLeaves leaves).getD k Merkle.zeroHash) k path r2
          = false := by
  obtain ⟨m, hm⟩ := nextPowerOfTwo_pow leaves.length
  have hge : leaves.length ≤ Merkle.nextPowerOfTwo leaves.length := nextPowerOfTwo_ge _
  have hplen : (Merkle.DenseMerkleTree.paddedLeaves leaves).length
      = Merkle.nextPowerOfTwo leaves.length := by
    rw [Merkle.DenseMerkleTree.paddedLeaves, List.length_append, List.length_replicate]
    omega
  have hnl : Merkle.bitLen (Merkle.nextPowerOfTwo leaves.length) = m + 1 := by
    rw [hm, bitLen_two_pow]
  obtain ⟨path, hgen, hroot, hver⟩ := dense_round_trip
    (Merkle.defaultsList (Merkle.bitLen (Merkle.nextPowerOfTwo leaves.length)))
    (Merkle.bitLen (Merkle.nextPowerOfTwo leaves.length)) m
    (Merkle.DenseMerkleTree.paddedLeaves leaves) k
    hnl (by omega) (by rw [hplen, hm])
  refine ⟨path,
    (Merkle.DenseMerkleTree.buildIter
      (Merkle.defaultsList (Merkle.bitLen (Merkle.nextPowerOfTwo leaves.length))) 0
      (Merkle.bitLen (Merkle.nextPowerOfTwo leaves.length))
      (Merkle.DenseMerkleTree.paddedLeaves leaves)).getD 0 Merkle.zeroHash,
    ?_, ?_, ?_, ?_⟩
  · rw [new_components]
    exact hgen
  · rw [new_components]
    exact hroot
  · rw [Merkle.DenseMerkleTree.verifyPath, hver]
    exact beq_self_eq_true _
  · intro r2 hr2
    rw [Merkle.DenseMerkleTree.verifyPath, hver]
    exact beq_eq_false_iff_ne.mpr (fun he => hr2 he.symm)

/-- C2 counterexample: on the two-leaf tree whose two leaves are both the zero
hash, the path generated for index 0 also verifies with index 1 — replacing
the index with a different value does not make `verify_path` return false. -/
theorem C2_counterexample :
    ∃ path r,
      (Merkle.DenseMerkleTree.new [Merkle.zeroHash, Merkle.zeroHash]).generatePath 0
        = .ok path ∧
      (Merkle.DenseMerkleTree.new [Merkle.zeroHash, Merkle.zeroHash]).root = .ok r ∧
      Merkle.DenseMerkleTree.verifyPath Merkle.zeroHash 1 path r = true := by
  refine ⟨[Merkle.zeroHash, Merkle.hashTwo Merkle.zeroHash Merkle.zeroHash],
    Merkle.hashTwo (Merkle.hashTwo Merkle.zeroHash Merkle.zeroHash)
      (Merkle.hashTwo Merkle.zeroHash Merkle.zeroHash), ?_⟩
  refine ⟨?_, ?_, ?_⟩ <;> decide

/-- C2 witness: the round-trip theorem applied to the one-leaf tree at index 0. -/
theorem C2_witness :
    0 < Merkle.nextPowerOfTwo ([Merkle.zeroHash] : List Merkle.Hash).length ∧
    ∃ path r,
      (Merkle.DenseMerkleTree.new [Merkle.zeroHash]).generatePath 0 = .ok path ∧
      (Merkle.DenseMerkleTree.new [Merkle.zeroHash]).root = .ok r ∧
      Merkle.DenseMerkleTree.verifyPath
        ((Merkle.DenseMerkleTree.paddedLeaves [Merkle.zeroHash]).getD 0 Merkle.zeroHash)
        0 path r = true ∧
      ∀ r2, r2 ≠ r →
        Merkle.DenseMerkleTree.verifyPath
          ((Merkle.DenseMerkleTree.paddedLeaves [Merkle.zeroHash]).getD 0 Merkle.zeroHash)
          0 path r2 = false :=
  ⟨by decide, C2_merkle_round_trip [Merkle.zeroHash] 0 (by decide)⟩

theorem lookupBy_insertBy_self {κ α : Type} [DecidableEq κ] (l : List (κ × α)) (k : κ)
    (v : α) : lookupBy (insertBy l k v) k = some v := by
  induction l with
  | nil => simp [insertBy, lookupBy]
  | cons hd tl ih =>
      obtain ⟨k2, w⟩ := hd
      by_cases h : k = k2
      · subst h
        simp [insertBy, lookupBy]
      · simp [insertBy, lookupBy, h, ih]

theorem new_root_ok (leaves : List Merkle.Hash) :
    (Merkle.DenseMerkleTree.new leaves).root
      = .ok ((Merkle.DenseMerkleTree.buildIter
          (Merkle.defaultsList (Merkle.bitLen (Merkle.nextPowerOfTwo leaves.length))) 0
          (Merkle.bitLen (Merkle.nextPowerOfTwo leaves.length))
          (Merkle.DenseMerkleTree.paddedLeaves leaves)).getD 0 Merkle.zeroHash) := by
  rw [new_components]
  have hget := buildFrom_get?
    (Merkle.defaultsList (Merkle.bitLen (Merkle.nextPowerOfTwo leaves.length)))
    (Merkle.bitLen (Merkle.nextPowerOfTwo leaves.length)) 0
    (Merkle.DenseMerkleTree.paddedLeaves leaves)
    (Merkle.bitLen (Merkle.nextPowerOfTwo leaves.length)) le_rfl
  simp only [Merkle.DenseMerkleTree.root, hget]
  rw [list_headD_eq_getD]

/-- C3: when a commitment and scores are registered for `compute_id` (and every
score id resolves through the runner dictionary), `verify_job` returns `Ok` of
exactly the conjunction of (a) the registered commitment equalling the root of
the compute tree rebuilt from the registered scores, and (b) the one-step
convergence check on the mapped scores. -/
theorem C3_verify_job_conjunction (r : VerificationRunner)
    (compute_id commitment : Merkle.Hash) (scores : List ScoreEntry) (mapped : SMap ℚ)
    (hc : lookupBy r.commitments compute_id = some commitment)
    (hs : lookupBy r.compute_scores compute_id = some scores)
    (hmap : VerificationRunner.mapScoreEntries r.indices scores [] = .ok mapped) :
    ∃ rt,
      (Merkle.DenseMerkleTree.new
          (scores.map fun x => Merkle.hashLeaf (f32ToBeBytes x.value))).root = .ok rt ∧
      VerificationRunner.verify_job r compute_id
        = .val (.ok ((commitment == rt)
            && Et.convergence_check r.local_trust r.seed_trust mapped r.count)) := by
  obtain ⟨rt, hroot⟩ : ∃ rt,
      (Merkle.DenseMerkleTree.new
          (scores.map fun x => Merkle.hashLeaf (f32ToBeBytes x.value))).root = .ok rt :=
    ⟨_, new_root_ok _⟩
  refine ⟨rt, hroot, ?_⟩
  simp only [VerificationRunner.verify_job, hc, VerificationRunner.create_compute_tree, hs,
    hroot, VerificationRunner.get_root_hashes, VerificationRunner.get_base_root_hashes,
    lookupBy_insertBy_self, VerificationRunner.compute_verification, hmap]

/-- C3 witness: a runner holding the zero commitment and an empty score list for
the zero compute id; both registration lookups succeed and `verify_job` returns
the conjunction. -/
theorem C3_witness :
    (lookupBy (VerificationRunner.update_scores
        (VerificationRunner.update_commitment VerificationRunner.new
          Merkle.zeroHash Merkle.zeroHash) Merkle.zeroHash []).commitments Merkle.zeroHash
      = some Merkle.zeroHash) ∧
    (lookupBy (VerificationRunner.update_scores
        (VerificationRunner.update_commitment VerificationRunner.new
          Merkle.zeroHash Merkle.zeroHash) Merkle.zeroHash []).compute_scores Merkle.zeroHash
      = some []) ∧
    (VerificationRunner.mapScoreEntries (VerificationRunner.update_scores
        (VerificationRunner.update_commitment VerificationRunner.new
          Merkle.zeroHash Merkle.zeroHash) Merkle.zeroHash []).indices [] [] = .ok []) ∧
    ∃ rt,
      (Merkle.DenseMerkleTree.new
          (([] : List ScoreEntry).map fun x => Merkle.hashLeaf (f32ToBeBytes x.value))).root
        = .ok rt ∧
      VerificationRunner.verify_job (VerificationRunner.update_scores
          (VerificationRunner.update_commitment VerificationRunner.new
            Merkle.zeroHash Merkle.zeroHash) Merkle.zeroHash []) Merkle.zeroHash
        = .val (.ok ((Merkle.zeroHash == rt)
            && Et.convergence_check (VerificationRunner.update_scores
                (VerificationRunner.update_commitment VerificationRunner.new
                  Merkle.zeroHash Merkle.zeroHash) Merkle.zeroHash []).local_trust
              (VerificationRunner.update_scores
                (VerificationRunner.update_commitment VerificationRunner.new
                  Merkle.zeroHash Merkle.zeroHash) Merkle.zeroHash []).seed_trust []
              (VerificationRunner.update_scores
                (VerificationRunner.update_commitment VerificationRunner.new
                  Merkle.zeroHash Merkle.zeroHash) Merkle.zeroHash []).count)) :=
  ⟨by decide, by decide, by decide,
    C3_verify_job_conjunction _ Merkle.zeroHash Merkle.zeroHash [] []
      (by decide) (by decide) (by decide)⟩

/-- C10: `verify_job` panics (an `unwrap` of a missing map entry) when no
commitment is registered for `compute_id`, and likewise when a commitment is
registered but no scores are; when both are registered the unwraps succeed and
it returns a value (an `Ok` verdict or a domain-index error, never a panic). -/
theorem C10_verify_job_panics (r : VerificationRunner) (compute_id : Merkle.Hash) :
    (lookupBy r.commitments compute_id = none →
      VerificationRunner.verify_job r compute_id = .panic) ∧
    (∀ c, lookupBy r.commitments compute_id = some c →
      lookupBy r.compute_scores compute_id = none →
      VerificationRunner.verify_job r compute_id = .panic) ∧
    (∀ c scores, lookupBy r.commitments compute_id = some c →
      lookupBy r.compute_scores compute_id = some scores →
      ∃ x, VerificationRunner.verify_job r compute_id = PanicOr.val x) := by
  refine ⟨?_, ?_, ?_⟩
  · intro hc
    simp only [VerificationRunner.verify_job, hc]
  · intro c hc hs
    simp only [VerificationRunner.verify_job, hc,
      VerificationRunner.create_compute_tree, hs]
  · intro c scores hc hs
    obtain ⟨rt, hroot⟩ : ∃ rt,
        (Merkle.DenseMerkleTree.new
            (scores.map fun x => Merkle.hashLeaf (f32ToBeBytes x.value))).root = .ok rt :=
      ⟨_, new_root_ok _⟩
    cases hm : VerificationRunner.mapScoreEntries r.indices scores [] with
    | error e =>
        refine ⟨.error e, ?_⟩
        simp only [VerificationRunner.verify_job, hc,
          VerificationRunner.create_compute_tree, hs, hroot,
          VerificationRunner.get_root_hashes, VerificationRunner.get_base_root_hashes,
          lookupBy_insertBy_self, VerificationRunner.compute_verification, hm]
    | ok mapped =>
        refine ⟨.ok ((c == rt)
          && Et.convergence_check r.local_trust r.seed_trust mapped r.count), ?_⟩
        simp only [VerificationRunner.verify_job, hc,
          VerificationRunner.create_compute_tree, hs, hroot,
          VerificationRunner.get_root_hashes, VerificationRunner.get_base_root_hashes,
          lookupBy_insertBy_self, VerificationRunner.compute_verification, hm]

/-- C10 witness: on the empty runner the commitment unwrap panics; after
registering only a commitment the scores unwrap panics; after registering both,
`verify_job` returns a value. -/
theorem C10_witness :
    (VerificationRunner.verify_job VerificationRunner.new Merkle.zeroHash = .panic) ∧
    (VerificationRunner.verify_job
        (VerificationRunner.update_commitment VerificationRunner.new
          Merkle.zeroHash Merkle.zeroHash) Merkle.zeroHash = .panic) ∧
    ∃ x, VerificationRunner.verify_job
        (VerificationRunner.update_scores
          (VerificationRunner.update_commitment VerificationRunner.new
            Merkle.zeroHash Merkle.zeroHash) Merkle.zeroHash []) Merkle.zeroHash
      = PanicOr.val x :=
  ⟨(C10_verify_job_panics VerificationRunner.new Merkle.zeroHash).1 (by decide),
    (C10_verify_job_panics (VerificationRunner.update_commitment VerificationRunner.new
        Merkle.zeroHash Merkle.zeroHash) Merkle.zeroHash).2.1
      Merkle.zeroHash (by decide) (by decide),
    (C10_verify_job_panics (VerificationRunner.update_scores
        (VerificationRunner.update_commitment VerificationRunner.new
          Merkle.zeroHash Merkle.zeroHash) Merkle.zeroHash []) Merkle.zeroHash).2.2
      Merkle.zeroHash [] (by decide) (by decide)⟩

theorem verifySubJob_congr (env1 env2 : Challenger.ChallengerEnv)
    (h1 : env1.trustData = env2.trustData) (h2 : env1.seedData = env2.seedData)
    (h3 : env1.scoresData = env2.scoresData) (i : Nat) (res : Challenger.JobResult) :
    Challenger.verifySubJob env1 i res = Challenger.verifySubJob env2 i res := by
  simp only [Challenger.verifySubJob, h1, h2, h3]

theorem stage1_congr (env1 env2 : Challenger.ChallengerEnv)
    (h : env1.downloads = env2.downloads) :
    ∀ l, Challenger.stage1 env1 l = Challenger.stage1 env2 l := by
  intro l
  induction l with
  | nil => rfl
  | cons i rest ih =>
      simp only [Challenger.stage1, h]
      cases hd : env2.downloads i with
      | error e => simp [hd]
      | ok u => simp [hd, ih]

theorem stage2_congr (env1 env2 : Challenger.ChallengerEnv)
    (h1 : env1.trustData = env2.trustData) (h2 : env1.seedData = env2.seedData)
    (h3 : env1.scoresData = env2.scoresData) :
    ∀ l, Challenger.stage2 env1 l = Challenger.stage2 env2 l := by
  intro l
  induction l with
  | nil => rfl
  | cons p rest ih =>
      obtain ⟨i, res⟩ := p
      simp only [Challenger.stage2, verifySubJob_congr env1 env2 h1 h2 h3 i res]
      cases hv : Challenger.verifySubJob env2 i res with
      | panic => simp [hv]
      | val r =>
          cases r with
          | error e => simp [hv]
          | ok b => simp [hv, ih]

/-- C4: whenever `handle_meta_compute_result` runs to completion it submits
`submitMetaChallenge(compute_id, sub_job_failed)` exactly when `global_result`
is false, and the same `(global_result, submission)` pair results under any
other challenge-window length (the window flag is computed but does not gate
submission); when the handler aborts with an internal error it submits
nothing. -/
theorem C4_submission_iff_global_failure (env : Challenger.ChallengerEnv) :
    (∀ w g sub,
      Challenger.handle_meta_compute_result env
        = .val (.ok (.completed w g sub)) →
      (g = true → sub = none) ∧
      (g = false → ∃ sj, sub = some (env.computeId, sj)) ∧
      (∀ env2 : Challenger.ChallengerEnv,
        env2.computeId = env.computeId → env2.eventCommitment = env.eventCommitment →
        env2.metaResult = env.metaResult → env2.latestBlockTs = env.latestBlockTs →
        env2.logBlockTs = env.logBlockTs →
        env2.alreadyChallenged = env.alreadyChallenged →
        env2.requestPresent = env.requestPresent →
        env2.jobDescription = env.jobDescription → env2.createDirs = env.createDirs →
        env2.downloads = env.downloads → env2.trustData = env.trustData →
        env2.seedData = env.seedData → env2.scoresData = env.scoresData →
        ∃ w2, Challenger.handle_meta_compute_result env2
          = .val (.ok (.completed w2 g sub)))) ∧
    (∀ e, Challenger.handle_meta_compute_result env = .val (.error e) →
      Challenger.submissionOf (Challenger.handle_meta_compute_result env) = none) := by
  constructor
  · intro w g sub h
    simp only [Challenger.handle_meta_compute_result] at h
    cases hmr : env.metaResult with
    | error e => simp [hmr] at h
    | ok meta_result =>
    simp only [hmr] at h
    cases hlat : env.latestBlockTs with
    | error e => simp [hlat] at h
    | ok latest_ts =>
    simp only [hlat] at h
    cases hlog : env.logBlockTs with
    | error e => simp [hlog] at h
    | ok log_ts =>
    simp only [hlog] at h
    by_cases hac : env.alreadyChallenged = true
    · rw [if_pos hac] at h
      simp at h
    rw [if_neg hac] at h
    by_cases hrp : (!env.requestPresent) = true
    · rw [if_pos hrp] at h
      simp at h
    rw [if_neg hrp] at h
    cases hdesc : env.jobDescription with
    | error e => simp [hdesc] at h
    | ok job_description =>
    simp only [hdesc] at h
    cases hcd : env.createDirs with
    | error e => simp [hcd] at h
    | ok u0 =>
    simp only [hcd] at h
    by_cases hlen : job_description.length < meta_result.length
    · rw [if_pos hlen] at h
      exact PanicOr.noConfusion h
    rw [if_neg hlen] at h
    cases hs1 : Challenger.stage1 env (List.range meta_result.length) with
    | error e => simp [hs1] at h
    | ok u1 =>
    simp only [hs1] at h
    cases hs2 : Challenger.stage2 env ((List.range meta_result.length).zip meta_result) with
    | panic => simp [hs2] at h
    | val r2 =>
    simp only [hs2] at h
    cases r2 with
    | error e => simp at h
    | ok st2 =>
    cases hdc : Challenger.decodeCommitments
        (meta_result.map Challenger.JobResult.commitment) with
    | error e => simp [hdc] at h
    | ok commitment_hashes =>
    simp only [hdc] at h
    cases hroot2 : (Merkle.DenseMerkleTree.new commitment_hashes).root with
    | error e => simp [hroot2] at h
    | ok meta_commitment =>
    simp only [hroot2] at h
    by_cases hg : (st2.1 && (hexEncode meta_commitment == hexEncode env.eventCommitment))
        = true
    · rw [if_pos hg] at h
      simp only [PanicOr.val.injEq, Except.ok.injEq,
        Challenger.HandleOut.completed.injEq] at h
      obtain ⟨hw, hgg, hsub⟩ := h
      refine ⟨fun _ => hsub.symm, fun hgf => absurd (hgg.trans hgf) (by simp), ?_⟩
      intro env2 e1 e2 e3 e4 e5 e6 e7 e8 e9 e10 e11 e12 e13
      have hst1 : Challenger.stage1 env2 (List.range meta_result.length)
          = Except.ok u1 := by
        rw [stage1_congr env2 env e10]
        exact hs1
      have hst2 : Challenger.stage2 env2 ((List.range meta_result.length).zip meta_result)
          = PanicOr.val (Except.ok st2) := by
        rw [stage2_congr env2 env e11 e12 e13]
        exact hs2
      refine ⟨decide ((2 ^ 64 + latest_ts - log_ts) % 2 ^ 64 < env2.challengeWindow), ?_⟩
      simp only [Challenger.handle_meta_compute_result, e3, hmr, e4, hlat, e5, hlog,
        e6, if_neg hac, e7, if_neg hrp, e8, hdesc, e9, hcd, if_neg hlen, hst1, hst2,
        hdc, hroot2, e2, e1, if_pos hg]
      rw [← hgg, ← hsub]
    · rw [if_neg hg] at h
      simp only [PanicOr.val.injEq, Except.ok.injEq,
        Challenger.HandleOut.completed.injEq] at h
      obtain ⟨hw, hgg, hsub⟩ := h
      refine ⟨fun hgt => absurd (hgg.trans hgt) (by simp),
        fun _ => ⟨st2.2, hsub.symm⟩, ?_⟩
      intro env2 e1 e2 e3 e4 e5 e6 e7 e8 e9 e10 e11 e12 e13
      have hst1 : Challenger.stage1 env2 (List.range meta_result.length)
          = Except.ok u1 := by
        rw [stage1_congr env2 env e10]
        exact hs1
      have hst2 : Challenger.stage2 env2 ((List.range meta_result.length).zip meta_result)
          = PanicOr.val (Except.ok st2) := by
        rw [stage2_congr env2 env e11 e12 e13]
        exact hs2
      refine ⟨decide ((2 ^ 64 + latest_ts - log_ts) % 2 ^ 64 < env2.challengeWindow), ?_⟩
      simp only [Challenger.handle_meta_compute_result, e3, hmr, e4, hlat, e5, hlog,
        e6, if_neg hac, e7, if_neg hrp, e8, hdesc, e9, hcd, if_neg hlen, hst1, hst2,
        hdc, hroot2, e2, e1, if_neg hg]
      rw [← hgg, ← hsub]
  · intro e h
    rw [h]
    simp [Challenger.submissionOf]

/-- C4 witness: a concrete completed run (no sub-jobs, mismatching meta
commitment) in which `global_result` is false and the handler submits
`(compute_id, sub_job_failed)`. -/
theorem C4_witness :
    (Challenger.handle_meta_compute_result
        { computeId := 7, eventCommitment := Merkle.zeroHash, challengeWindow := 100,
          metaResult := Except.ok [], latestBlockTs := Except.ok 5,
          logBlockTs := Except.ok 3, alreadyChallenged := false, requestPresent := true,
          jobDescription := Except.ok [], createDirs := Except.ok (),
          downloads := fun _ => Except.ok (), trustData := fun _ => Except.ok [],
          seedData := fun _ => Except.ok [], scoresData := fun _ => Except.ok [] }
      = .val (.ok (.completed true false (some (7, 0))))) ∧
    ∃ sj, (some (7, 0) : Option (Nat × Nat)) = some (7, sj) :=
  ⟨by decide,
    ((C4_submission_iff_global_failure
        { computeId := 7, eventCommitment := Merkle.zeroHash, challengeWindow := 100,
          metaResult := Except.ok [], latestBlockTs := Except.ok 5,
          logBlockTs := Except.ok 3, alreadyChallenged := false, requestPresent := true,
          jobDescription := Except.ok [], createDirs := Except.ok (),
          downloads := fun _ => Except.ok (), trustData := fun _ => Except.ok [],
          seedData := fun _ => Except.ok [], scoresData := fun _ => Except.ok [] }).1
      true false (some (7, 0)) (by decide)).2.1 rfl⟩

unseal Rat.add Rat.sub Rat.mul Rat.inv in
/-- C3 counterexample: with a commitment and scores registered for the zero
compute id but a score entry whose id is not in the runner dictionary,
`verify_job` returns a `DomainIndexNotFound` error rather than the
root/convergence conjunction. -/
theorem C3_counterexample :
    VerificationRunner.verify_job
        (VerificationRunner.update_scores
          (VerificationRunner.update_commitment VerificationRunner.new
            Merkle.zeroHash Merkle.zeroHash)
          Merkle.zeroHash [{ id := "a", value := 1 }]) Merkle.zeroHash
      = .val (.error (.DomainIndexNotFound "a")) := by
  decide

theorem find?_mem {α : Type} (m : SMap α) (k : Nat) (v : α)
    (h : SMap.find? m k = some v) : (k, v) ∈ m := by
  induction m with
  | nil => simp [SMap.find?] at h
  | cons hd tl ih =>
      rw [show hd = (hd.1, hd.2) from rfl, SMap.find?] at h
      by_cases h1 : k = hd.1
      · rw [if_pos h1] at h
        have hv := Option.some.inj h
        exact List.mem_cons.mpr (Or.inl (by rw [h1, ← hv]))
      · rw [if_neg h1] at h
        exact List.mem_cons.mpr (Or.inr (ih h))

theorem insert_eq_self_of_find? {α : Type} (k : Nat) (v : α) :
    ∀ (m : SMap α), SMap.Sorted m → SMap.find? m k = some v → SMap.insert m k v = m
  | [], _, h => by simp [SMap.find?] at h
  | (k2, w) :: tl, hs, h => by
      rw [SMap.find?] at h
      rw [SMap.insert]
      by_cases h1 : k = k2
      · rw [if_pos h1] at h
        have hv := Option.some.inj h
        rw [if_neg (show ¬ k < k2 from by omega), if_pos h1, h1, hv]
      · rw [if_neg h1] at h
        have hk : (k, v) ∈ tl := find?_mem tl k v h
        rw [SMap.Sorted, List.pairwise_cons] at hs
        have hlt : k2 < k := hs.1 (k, v) hk
        rw [if_neg (show ¬ k < k2 from by omega), if_neg h1]
        rw [insert_eq_self_of_find? k v tl hs.2 h]

theorem sorted_filter {α : Type} (m : SMap α) (f : Nat × α → Bool)
    (hs : SMap.Sorted m) : SMap.Sorted (m.filter f) :=
  List.Pairwise.sublist (List.filter_sublist m) hs

theorem find?_filter_key {α : Type} (P : Nat → Bool) :
    ∀ (m : SMap α) (k : Nat),
      SMap.find? (m.filter fun p => P p.1) k
        = if P k then SMap.find? m k else none
  | [], k => by
      cases hP : P k <;> simp [SMap.find?, hP]
  | (k2, w) :: tl, k => by
      have hrec := find?_filter_key P tl k
      cases hPk2 : P k2 with
      | true =>
          have hfc : List.filter (fun p => P p.1) ((k2, w) :: tl)
              = (k2, w) :: List.filter (fun p => P p.1) tl := by
            simp [List.filter_cons, hPk2]
          rw [hfc, SMap.find?]
          by_cases h1 : k = k2
          · rw [if_pos h1, h1, if_pos hPk2, SMap.find?, if_pos rfl]
          · rw [if_neg h1, hrec,
              show SMap.find? ((k2, w) :: tl) k = SMap.find? tl k from by
                rw [SMap.find?, if_neg h1]]
      | false =>
          have hfc : List.filter (fun p => P p.1) ((k2, w) :: tl)
              = List.filter (fun p => P p.1) tl := by
            simp [List.filter_cons, hPk2]
          rw [hfc, hrec]
          by_cases h1 : k = k2
          · rw [h1, if_neg (by simp [hPk2]), if_neg (by simp [hPk2])]
          · rw [show SMap.find? ((k2, w) :: tl) k = SMap.find? tl k from by
              rw [SMap.find?, if_neg h1]]

theorem sorted_ext {α : Type} :
    ∀ (m1 m2 : SMap α), SMap.Sorted m1 → SMap.Sorted m2 →
      (∀ k, SMap.find? m1 k = SMap.find? m2 k) → m1 = m2
  | [], [], _, _, _ => rfl
  | [], (k2, v2) :: t2, _, _, hf => by
      have h := hf k2
      simp [SMap.find?] at h
  | (k1, v1) :: t1, [], _, _, hf => by
      have h := hf k1
      simp [SMap.find?] at h
  | (k1, v1) :: t1, (k2, v2) :: t2, hs1, hs2, hf => by
      rw [SMap.Sorted, List.pairwise_cons] at hs1 hs2
      have h12 : k1 = k2 := by
        by_contra hne
        have h1 := hf k1
        rw [SMap.find?, if_pos rfl, SMap.find?, if_neg hne] at h1
        have hm : (k1, v1) ∈ t2 := find?_mem t2 k1 v1 h1.symm
        have hk21 : k2 < k1 := hs2.1 (k1, v1) hm
        have hA : SMap.find? ((k1, v1) :: t1) k2 = SMap.find? t1 k2 := by
          rw [SMap.find?, if_neg (fun hh => hne hh.symm)]
        have hB : SMap.find? ((k2, v2) :: t2) k2 = some v2 := by
          rw [SMap.find?, if_pos rfl]
        have h2 := hf k2
        rw [hA, hB] at h2
        have hm2 : (k2, v2) ∈ t1 := find?_mem t1 k2 v2 h2
        have hk12 : k1 < k2 := hs1.1 (k2, v2) hm2
        omega
      subst h12
      have hv : v1 = v2 := by
        have h1 := hf k1
        rw [SMap.find?, if_pos rfl, SMap.find?, if_pos rfl] at h1
        exact Option.some.inj h1
      subst hv
      have htl : ∀ k, SMap.find? t1 k = SMap.find? t2 k := by
        intro k
        by_cases hk : k = k1
        · subst hk
          have hn1 : SMap.find? t1 k = none := by
            rw [SMap.find?_eq_none_iff]
            intro hmem
            rcases List.mem_map.mp hmem with ⟨p, hp, hpk⟩
            have := hs1.1 p hp
            omega
          have hn2 : SMap.find? t2 k = none := by
            rw [SMap.find?_eq_none_iff]
            intro hmem
            rcases List.mem_map.mp hmem with ⟨p, hp, hpk⟩
            have := hs2.1 p hp
            omega
          rw [hn1, hn2]
        · have h1 := hf k
          rw [SMap.find?, if_neg hk] at h1
          rw [SMap.find?, if_neg hk] at h1
          exact h1
      rw [sorted_ext t1 t2 hs1.2 hs2.2 htl]

theorem foldOnes_find_lt (seed : SMap ℚ) :
    ∀ (count k : Nat), k < count →
      SMap.find? ((List.range count).foldl (fun s i => SMap.insert s i 1) seed) k
        = some 1 := by
  intro count
  induction count with
  | zero => intro k hk; omega
  | succ n ih =>
      intro k hk
      rw [List.range_succ, List.foldl_append,
        show ∀ acc : SMap ℚ,
          List.foldl (fun s i => SMap.insert s i 1) acc [n] = SMap.insert acc n 1
          from fun _ => rfl]
      by_cases h1 : k = n
      · rw [h1, SMap.find?_insert_self]
      · rw [SMap.find?_insert_ne _ _ _ _ h1]
        exact ih k (by omega)

theorem foldOnes_find_ge (seed : SMap ℚ) :
    ∀ (count k : Nat), count ≤ k →
      SMap.find? ((List.range count).foldl (fun s i => SMap.insert s i 1) seed) k
        = SMap.find? seed k := by
  intro count
  induction count with
  | zero => intro k _; rfl
  | succ n ih =>
      intro k hk
      rw [List.range_succ, List.foldl_append,
        show ∀ acc : SMap ℚ,
          List.foldl (fun s i => SMap.insert s i 1) acc [n] = SMap.insert acc n 1
          from fun _ => rfl]
      rw [SMap.find?_insert_ne _ _ _ _ (by omega)]
      exact ih k (by omega)

theorem foldOnes_sorted (seed : SMap ℚ) (hs : SMap.Sorted seed) :
    ∀ count, SMap.Sorted ((List.range count).foldl (fun s i => SMap.insert s i 1) seed) := by
  intro count
  induction count with
  | zero => exact hs
  | succ n ih =>
      rw [List.range_succ, List.foldl_append,
        show ∀ acc : SMap ℚ,
          List.foldl (fun s i => SMap.insert s i 1) acc [n] = SMap.insert acc n 1
          from fun _ => rfl]
      exact SMap.sorted_insert _ n 1 ih

theorem foldOnes_idem (seed : SMap ℚ) :
    ∀ count, (∀ k, k < count → SMap.find? seed k = some 1) → SMap.Sorted seed →
      (List.range count).foldl (fun s i => SMap.insert s i 1) seed = seed := by
  intro count
  induction count with
  | zero => intro _ _; rfl
  | succ n ih =>
      intro h hs
      rw [List.range_succ, List.foldl_append,
        show ∀ acc : SMap ℚ,
          List.foldl (fun s i => SMap.insert s i 1) acc [n] = SMap.insert acc n 1
          from fun _ => rfl]
      rw [ih (fun k hk => h k (by omega)) hs]
      exact insert_eq_self_of_find? n 1 seed hs (h n (by omega))

theorem replFold_find (sd : SMap ℚ) (l0 : SMap OutboundLocalTrust) :
    ∀ (count k : Nat),
      SMap.find? ((List.range count).foldl
        (fun l fromIdx =>
          if ((SMap.find? l fromIdx).map OutboundLocalTrust.outbound_sum).getD 0 = 0
          then SMap.insert l fromIdx (OutboundLocalTrust.from_score_map sd) else l) l0) k
      = if k < count then
          (if ((SMap.find? l0 k).map OutboundLocalTrust.outbound_sum).getD 0 = 0
            then some (OutboundLocalTrust.from_score_map sd) else SMap.find? l0 k)
        else SMap.find? l0 k := by
  intro count
  induction count with
  | zero =>
      intro k
      rw [if_neg (by omega)]
      rfl
  | succ n ih =>
      intro k
      rw [List.range_succ, List.foldl_append,
        show ∀ acc : SMap OutboundLocalTrust,
          List.foldl (fun l fromIdx =>
            if ((SMap.find? l fromIdx).map OutboundLocalTrust.outbound_sum).getD 0 = 0
            then SMap.insert l fromIdx (OutboundLocalTrust.from_score_map sd) else l) acc [n]
          = (if ((SMap.find? acc n).map OutboundLocalTrust.outbound_sum).getD 0 = 0
              then SMap.insert acc n (OutboundLocalTrust.from_score_map sd) else acc)
          from fun _ => rfl]
      have hFn := ih n
      rw [if_neg (by omega)] at hFn
      by_cases hz : ((SMap.find? l0 n).map OutboundLocalTrust.outbound_sum).getD 0 = 0
      · rw [if_pos (show ((SMap.find? ((List.range n).foldl
            (fun l fromIdx =>
              if ((SMap.find? l fromIdx).map OutboundLocalTrust.outbound_sum).getD 0 = 0
              then SMap.insert l fromIdx (OutboundLocalTrust.from_score_map sd) else l)
            l0) n).map OutboundLocalTrust.outbound_sum).getD 0 = 0 from by
          rw [hFn]; exact hz)]
        by_cases h1 : k = n
        · rw [h1, SMap.find?_insert_self, if_pos (show n < n + 1 from by omega), if_pos hz]
        · rw [SMap.find?_insert_ne _ _ _ _ h1, ih k]
          by_cases h2 : k < n
          · rw [if_pos h2, if_pos (show k < n + 1 from by omega)]
          · rw [if_neg h2, if_neg (show ¬ k < n + 1 from by omega)]
      · rw [if_neg (show ¬ ((SMap.find? ((List.range n).foldl
            (fun l fromIdx =>
              if ((SMap.find? l fromIdx).map OutboundLocalTrust.outbound_sum).getD 0 = 0
              then SMap.insert l fromIdx (OutboundLocalTrust.from_score_map sd) else l)
            l0) n).map OutboundLocalTrust.outbound_sum).getD 0 = 0 from by
          rw [hFn]; exact hz)]
        rw [ih k]
        by_cases h1 : k = n
        · rw [h1, if_neg (show ¬ n < n from by omega),
            if_pos (show n < n + 1 from by omega), if_neg hz]
        · by_cases h2 : k < n
          · rw [if_pos h2, if_pos (show k < n + 1 from by omega)]
          · rw [if_neg h2, if_neg (show ¬ k < n + 1 from by omega)]

theorem replFold_sorted (sd : SMap ℚ) (l0 : SMap OutboundLocalTrust)
    (hs : SMap.Sorted l0) :
    ∀ count, SMap.Sorted ((List.range count).foldl
      (fun l fromIdx =>
        if ((SMap.find? l fromIdx).map OutboundLocalTrust.outbound_sum).getD 0 = 0
        then SMap.insert l fromIdx (OutboundLocalTrust.from_score_map sd) else l) l0) := by
  intro count
  induction count with
  | zero => exact hs
  | succ n ih =>
      rw [List.range_succ, List.foldl_append,
        show ∀ acc : SMap OutboundLocalTrust,
          List.foldl (fun l fromIdx =>
            if ((SMap.find? l fromIdx).map OutboundLocalTrust.outbound_sum).getD 0 = 0
            then SMap.insert l fromIdx (OutboundLocalTrust.from_score_map sd) else l) acc [n]
          = (if ((SMap.find? acc n).map OutboundLocalTrust.outbound_sum).getD 0 = 0
              then SMap.insert acc n (OutboundLocalTrust.from_score_map sd) else acc)
          from fun _ => rfl]
      by_cases hz : ((SMap.find? ((List.range n).foldl
          (fun l fromIdx =>
            if ((SMap.find? l fromIdx).map OutboundLocalTrust.outbound_sum).getD 0 = 0
            then SMap.insert l fromIdx (OutboundLocalTrust.from_score_map sd) else l)
          l0) n).map OutboundLocalTrust.outbound_sum).getD 0 = 0
      · rw [if_pos hz]
        exact SMap.sorted_insert _ n _ ih
      · rw [if_neg hz]
        exact ih

theorem replFold_mem (sd : SMap ℚ) (l0 : SMap OutboundLocalTrust)
    (p : Nat × OutboundLocalTrust) :
    ∀ count, p ∈ (List.range count).foldl
        (fun l fromIdx =>
          if ((SMap.find? l fromIdx).map OutboundLocalTrust.outbound_sum).getD 0 = 0
          then SMap.insert l fromIdx (OutboundLocalTrust.from_score_map sd) else l) l0 →
      p ∈ l0 ∨ p.2 = OutboundLocalTrust.from_score_map sd := by
  intro count
  induction count with
  | zero => exact fun h => Or.inl h
  | succ n ih =>
      rw [List.range_succ, List.foldl_append,
        show ∀ acc : SMap OutboundLocalTrust,
          List.foldl (fun l fromIdx =>
            if ((SMap.find? l fromIdx).map OutboundLocalTrust.outbound_sum).getD 0 = 0
            then SMap.insert l fromIdx (OutboundLocalTrust.from_score_map sd) else l) acc [n]
          = (if ((SMap.find? acc n).map OutboundLocalTrust.outbound_sum).getD 0 = 0
              then SMap.insert acc n (OutboundLocalTrust.from_score_map sd) else acc)
          from fun _ => rfl]
      intro h
      by_cases hz : ((SMap.find? ((List.range n).foldl
          (fun l fromIdx =>
            if ((SMap.find? l fromIdx).map OutboundLocalTrust.outbound_sum).getD 0 = 0
            then SMap.insert l fromIdx (OutboundLocalTrust.from_score_map sd) else l)
          l0) n).map OutboundLocalTrust.outbound_sum).getD 0 = 0
      · rw [if_pos hz] at h
        rcases SMap.mem_insert _ n _ p h with h2 | h2
        · right
          rw [h2]
        · exact ih h2
      · rw [if_neg hz] at h
        exact ih h

theorem rowBudget_cons (i : Nat) (visited : List Nat) (h : ¬ i ∈ visited) :
    ∀ lt : SMap OutboundLocalTrust,
      Et.rowBudget lt visited
        = Et.rowBudget lt (i :: visited)
          + ((lt.filter fun p => p.1 == i).map
              fun p => p.2.outbound_trust_scores.length).sum
  | [] => by simp [Et.rowBudget]
  | hd :: tl => by
      have ih := rowBudget_cons i visited h tl
      simp only [Et.rowBudget] at ih ⊢
      have hc : (i :: visited).contains hd.1 = (hd.1 == i || visited.contains hd.1) :=
        List.contains_cons
      cases hbi : hd.1 == i with
      | true =>
          have hieq : hd.1 = i := by simpa using hbi
          have hnv : visited.contains hd.1 = false := by
            cases hx : visited.contains hd.1
            · rfl
            · exact absurd (by rw [hieq] at hx; simpa using hx) h
          have f1 : List.filter (fun p => !visited.contains p.1) (hd :: tl)
              = hd :: List.filter (fun p => !visited.contains p.1) tl :=
            List.filter_cons_of_pos (by show (!visited.contains hd.1) = true; rw [hnv]; rfl)
          have f2 : List.filter (fun p => !(i :: visited).contains p.1) (hd :: tl)
              = List.filter (fun p => !(i :: visited).contains p.1) tl :=
            List.filter_cons_of_neg (by
              show ¬ (!(i :: visited).contains hd.1) = true
              rw [hc, hbi, hnv]
              simp)
          have f3 : List.filter (fun p => p.1 == i) (hd :: tl)
              = hd :: List.filter (fun p => p.1 == i) tl :=
            List.filter_cons_of_pos (by show (hd.1 == i) = true; rw [hbi])
          rw [f1, f2, f3, List.map_cons, List.sum_cons, List.map_cons, List.sum_cons, ih]
          omega
      | false =>
          cases hbv : visited.contains hd.1 with
          | true =>
              have f1 : List.filter (fun p => !visited.contains p.1) (hd :: tl)
                  = List.filter (fun p => !visited.contains p.1) tl :=
                List.filter_cons_of_neg (by
                  show ¬ (!visited.contains hd.1) = true
                  rw [hbv]
                  simp)
              have f2 : List.filter (fun p => !(i :: visited).contains p.1) (hd :: tl)
                  = List.filter (fun p => !(i :: visited).contains p.1) tl :=
                List.filter_cons_of_neg (by
                  show ¬ (!(i :: visited).contains hd.1) = true
                  rw [hc, hbi, hbv]
                  simp)
              have f3 : List.filter (fun p => p.1 == i) (hd :: tl)
                  = List.filter (fun p => p.1 == i) tl :=
                List.filter_cons_of_neg (by rw [hbi]; simp)
              rw [f1, f2, f3]
              exact ih
          | false =>
              have f1 : List.filter (fun p => !visited.contains p.1) (hd :: tl)
                  = hd :: List.filter (fun p => !visited.contains p.1) tl :=
                List.filter_cons_of_pos (by
                  show (!visited.contains hd.1) = true
                  rw [hbv]
                  rfl)
              have f2 : List.filter (fun p => !(i :: visited).contains p.1) (hd :: tl)
                  = hd :: List.filter (fun p => !(i :: visited).contains p.1) tl :=
                List.filter_cons_of_pos (by
                  show (!(i :: visited).contains hd.1) = true
                  rw [hc, hbi, hbv]
                  rfl)
              have f3 : List.filter (fun p => p.1 == i) (hd :: tl)
                  = List.filter (fun p => p.1 == i) tl :=
                List.filter_cons_of_neg (by rw [hbi]; simp)
              rw [f1, f2, f3, List.map_cons, List.sum_cons, List.map_cons, List.sum_cons, ih]
              omega

theorem find?_row_le_filter_sum (i : Nat) :
    ∀ (lt : SMap OutboundLocalTrust) (r : OutboundLocalTrust),
      SMap.find? lt i = some r →
      r.outbound_trust_scores.length
        ≤ ((lt.filter fun p => p.1 == i).map
            fun p => p.2.outbound_trust_scores.length).sum
  | [], r, h => by simp [SMap.find?] at h
  | hd :: tl, r, h => by
      rw [show hd = (hd.1, hd.2) from rfl, SMap.find?] at h
      by_cases h1 : i = hd.1
      · rw [if_pos h1] at h
        have hv := Option.some.inj h
        have f3 : List.filter (fun p => p.1 == i) (hd :: tl)
            = hd :: List.filter (fun p => p.1 == i) tl :=
          List.filter_cons_of_pos (by show (hd.1 == i) = true; simp [h1])
        rw [f3, List.map_cons, List.sum_cons, ← hv]
        omega
      · rw [if_neg h1] at h
        have hrec := find?_row_le_filter_sum i tl r h
        by_cases hbi : (hd.1 == i) = true
        · exact absurd (by simpa using hbi : hd.1 = i).symm h1
        · have hbif : (hd.1 == i) = false := by
            cases hx : hd.1 == i
            · rfl
            · exact absurd hx hbi
          have f3 : List.filter (fun p => p.1 == i) (hd :: tl)
              = List.filter (fun p => p.1 == i) tl :=
            List.filter_cons_of_neg (by rw [hbif]; simp)
          rw [f3]
          exact hrec

theorem contains_true_iff (l : List Nat) (x : Nat) : l.contains x = true ↔ x ∈ l :=
  List.elem_iff

theorem contains_false_iff (l : List Nat) (x : Nat) : l.contains x = false ↔ x ∉ l := by
  constructor
  · intro h hx
    rw [(contains_true_iff l x).mpr hx] at h
    exact Bool.noConfusion h
  · intro h
    cases hc : l.contains x
    · rfl
    · exact absurd ((contains_true_iff l x).mp hc) h

theorem findReachableAux_spec (lt : SMap OutboundLocalTrust) (start : List Nat) :
    ∀ (fuel : Nat) (toVisit visited : List Nat),
      toVisit.length + Et.rowBudget lt visited ≤ fuel →
      (∀ n ∈ visited, Et.Reaches lt start n) →
      (∀ n ∈ toVisit, Et.Reaches lt start n) →
      (∀ n ∈ visited, ∀ tv ∈ (((SMap.find? lt n).map
          OutboundLocalTrust.outbound_trust_scores).getD []),
        0 < tv.2 → tv.1 ∈ visited ∨ tv.1 ∈ toVisit) →
      (∀ n ∈ visited, n ∈ Et.findReachableAux lt fuel toVisit visited) ∧
      (∀ n ∈ toVisit, n ∈ Et.findReachableAux lt fuel toVisit visited) ∧
      (∀ n ∈ Et.findReachableAux lt fuel toVisit visited, Et.Reaches lt start n) ∧
      (∀ n ∈ Et.findReachableAux lt fuel toVisit visited,
        ∀ tv ∈ (((SMap.find? lt n).map OutboundLocalTrust.outbound_trust_scores).getD []),
          0 < tv.2 → tv.1 ∈ Et.findReachableAux lt fuel toVisit visited) := by
  intro fuel
  induction fuel with
  | zero =>
      intro toVisit visited hfuel ha hb hc
      have htv : toVisit = [] := by
        cases toVisit with
        | nil => rfl
        | cons x xs =>
            exfalso
            rw [List.length_cons] at hfuel
            omega
      subst htv
      rw [show Et.findReachableAux lt 0 [] visited = visited from rfl]
      refine ⟨fun n h => h, fun n h => by simp at h, ha, ?_⟩
      intro n hn tv htv hpos
      rcases hc n hn tv htv hpos with h | h
      · exact h
      · simp at h
  | succ f ih =>
      intro toVisit visited hfuel ha hb hc
      cases toVisit with
      | nil =>
          rw [show Et.findReachableAux lt (f + 1) [] visited = visited from rfl]
          refine ⟨fun n h => h, fun n h => by simp at h, ha, ?_⟩
          intro n hn tv htv hpos
          rcases hc n hn tv htv hpos with h | h
          · exact h
          · simp at h
      | cons i rest =>
          by_cases hiv : i ∈ visited
          · have hred : Et.findReachableAux lt (f + 1) (i :: rest) visited
                = Et.findReachableAux lt f rest visited := by
              simp only [Et.findReachableAux]
              rw [if_pos hiv]
            rw [hred]
            obtain ⟨g1, g2, g3, g4⟩ := ih rest visited
              (by rw [List.length_cons] at hfuel; omega) ha
              (fun n h => hb n (List.mem_cons_of_mem _ h))
              (by
                intro n hn tv htv hpos
                rcases hc n hn tv htv hpos with h | h
                · exact Or.inl h
                · rcases List.mem_cons.mp h with h2 | h2
                  · exact Or.inl (h2 ▸ hiv)
                  · exact Or.inr h2)
            refine ⟨g1, ?_, g3, g4⟩
            intro n hn
            rcases List.mem_cons.mp hn with h2 | h2
            · exact h2 ▸ g1 i hiv
            · exact g2 n h2
          · have hred : Et.findReachableAux lt (f + 1) (i :: rest) visited
                = Et.findReachableAux lt f
                    (rest ++ ((((SMap.find? lt i).map
                        OutboundLocalTrust.outbound_trust_scores).getD []).filter
                      fun jv => !visited.contains jv.1 && decide (0 < jv.2)).map Prod.fst)
                    (i :: visited) := by
              simp only [Et.findReachableAux]
              rw [if_neg hiv]
            rw [hred]
            have hReachI : Et.Reaches lt start i := hb i (List.mem_cons_self i rest)
            have hpush : ∀ n ∈ ((((SMap.find? lt i).map
                OutboundLocalTrust.outbound_trust_scores).getD []).filter
                  fun jv => !visited.contains jv.1 && decide (0 < jv.2)).map Prod.fst,
                Et.Reaches lt start n := by
              intro n hn
              rcases List.mem_map.mp hn with ⟨tv, htv, hteq⟩
              have htv2 := List.mem_filter.mp htv
              cases hfind : SMap.find? lt i with
              | none =>
                  rw [hfind] at htv2
                  exact absurd htv2.1 (by simp)
              | some r =>
                  rw [hfind] at htv2
                  have hmem : tv ∈ r.outbound_trust_scores := htv2.1
                  have hpos : 0 < tv.2 :=
                    of_decide_eq_true ((Bool.and_eq_true _ _).mp htv2.2).2
                  exact hteq ▸ Et.Reaches.step i tv.1 r tv.2 hReachI hfind hmem hpos
            obtain ⟨g1, g2, g3, g4⟩ := ih
              (rest ++ ((((SMap.find? lt i).map
                  OutboundLocalTrust.outbound_trust_scores).getD []).filter
                fun jv => !visited.contains jv.1 && decide (0 < jv.2)).map Prod.fst)
              (i :: visited)
              (by
                rw [List.length_cons] at hfuel
                rw [List.length_append]
                have hbud := rowBudget_cons i visited hiv lt
                have hP : (((((SMap.find? lt i).map
                    OutboundLocalTrust.outbound_trust_scores).getD []).filter
                      fun jv => !visited.contains jv.1 && decide (0 < jv.2)).map
                    Prod.fst).length
                    ≤ ((lt.filter fun p => p.1 == i).map
                        fun p => p.2.outbound_trust_scores.length).sum := by
                  have h1 : (((((SMap.find? lt i).map
                      OutboundLocalTrust.outbound_trust_scores).getD []).filter
                        fun jv => !visited.contains jv.1 && decide (0 < jv.2)).map
                      Prod.fst).length
                      ≤ (((SMap.find? lt i).map
                          OutboundLocalTrust.outbound_trust_scores).getD []).length := by
                    rw [List.length_map]
                    exact List.length_filter_le _ _
                  cases hfind : SMap.find? lt i with
                  | none =>
                      rw [hfind] at h1
                      have h2 : List.length ((Option.map
                          OutboundLocalTrust.outbound_trust_scores
                          (none : Option OutboundLocalTrust)).getD []) = 0 := rfl
                      omega
                  | some r =>
                      rw [hfind] at h1
                      have h2 : ((Option.map OutboundLocalTrust.outbound_trust_scores
                          (some r)).getD []) = r.outbound_trust_scores := rfl
                      rw [h2] at h1 ⊢
                      have h3 := find?_row_le_filter_sum i lt r hfind
                      omega
                omega)
              (by
                intro n hn
                rcases List.mem_cons.mp hn with h2 | h2
                · exact h2 ▸ hReachI
                · exact ha n h2)
              (by
                intro n hn
                rcases List.mem_append.mp hn with h2 | h2
                · exact hb n (List.mem_cons_of_mem _ h2)
                · exact hpush n h2)
              (by
                intro n hn tv htv hpos
                rcases List.mem_cons.mp hn with h2 | h2
                · subst h2
                  by_cases hmemv : tv.1 ∈ visited
                  · exact Or.inl (List.mem_cons_of_mem _ hmemv)
                  · refine Or.inr (List.mem_append.mpr (Or.inr ?_))
                    refine List.mem_map_of_mem Prod.fst (List.mem_filter.mpr ⟨htv, ?_⟩)
                    refine (Bool.and_eq_true _ _).mpr ⟨?_, decide_eq_true hpos⟩
                    rw [(contains_false_iff _ _).mpr hmemv]
                    rfl
                · rcases hc n h2 tv htv hpos with h3 | h3
                  · exact Or.inl (List.mem_cons_of_mem _ h3)
                  · rcases List.mem_cons.mp h3 with h4 | h4
                    · exact Or.inl (h4 ▸ List.mem_cons_self i visited)
                    · exact Or.inr (List.mem_append.mpr (Or.inl h4)))
            refine ⟨?_, ?_, g3, g4⟩
            · intro n hn
              exact g1 n (List.mem_cons_of_mem _ hn)
            · intro n hn
              rcases List.mem_cons.mp hn with h2 | h2
              · exact h2 ▸ g1 i (List.mem_cons_self i visited)
              · exact g2 n (List.mem_append.mpr (Or.inl h2))

theorem find_reachable_peers_iff (lt : SMap OutboundLocalTrust) (seed : SMap ℚ)
    (n : Nat) :
    n ∈ Et.find_reachable_peers lt seed ↔ Et.Reaches lt (SMap.keyList seed) n := by
  obtain ⟨g1, g2, g3, g4⟩ := findReachableAux_spec lt (SMap.keyList seed)
    (Et.reachFuel lt (SMap.keyList seed)) (SMap.keyList seed) []
    (Nat.le_refl _)
    (fun m h => by simp at h)
    (fun m h => Et.Reaches.base m h)
    (fun m h => by simp at h)
  constructor
  · intro h
    exact g3 n h
  · intro hR
    induction hR with
    | base m hm => exact g2 m hm
    | step f t r v hRf hfind hmem hpos ihf =>
        refine g4 f ihf (t, v) ?_ hpos
        rw [hfind]
        exact hmem

theorem reaches_lt_count (lt : SMap OutboundLocalTrust) (start : List Nat) (count : Nat)
    (hstart : ∀ k ∈ start, k < count)
    (htgt : ∀ p ∈ lt, ∀ tv ∈ (p : Nat × OutboundLocalTrust).2.outbound_trust_scores,
      tv.1 < count) :
    ∀ n, Et.Reaches lt start n → n < count := by
  intro n h
  induction h with
  | base m hm => exact hstart m hm
  | step f t r v hRf hfind hmem hpos ihf =>
      exact htgt (f, r) (find?_mem lt f r hfind) (t, v) hmem

theorem pre_process_second (lt : SMap OutboundLocalTrust) (sd : SMap ℚ) (count : Nat)
    (hslt : SMap.Sorted lt) (_hssd : SMap.Sorted sd)
    (hsdk : ∀ k ∈ SMap.keyList sd, k < count)
    (htgt : ∀ p ∈ lt, ∀ tv ∈ (p : Nat × OutboundLocalTrust).2.outbound_trust_scores,
      tv.1 < count)
    (hfix : (if SMap.sumValues sd = 0
        then (List.range count).foldl (fun s i => SMap.insert s i 1) sd else sd) = sd) :
    Et.pre_process
      (((List.range count).foldl
          (fun l fromIdx =>
            if ((SMap.find? l fromIdx).map OutboundLocalTrust.outbound_sum).getD 0 = 0
            then SMap.insert l fromIdx (OutboundLocalTrust.from_score_map sd) else l)
          lt).filter fun p =>
        p.1 ∈ Et.find_reachable_peers
          ((List.range count).foldl
            (fun l fromIdx =>
              if ((SMap.find? l fromIdx).map OutboundLocalTrust.outbound_sum).getD 0 = 0
              then SMap.insert l fromIdx (OutboundLocalTrust.from_score_map sd) else l)
            lt) sd)
      sd count
    = (((List.range count).foldl
          (fun l fromIdx =>
            if ((SMap.find? l fromIdx).map OutboundLocalTrust.outbound_sum).getD 0 = 0
            then SMap.insert l fromIdx (OutboundLocalTrust.from_score_map sd) else l)
          lt).filter fun p =>
        p.1 ∈ Et.find_reachable_peers
          ((List.range count).foldl
            (fun l fromIdx =>
              if ((SMap.find? l fromIdx).map OutboundLocalTrust.outbound_sum).getD 0 = 0
              then SMap.insert l fromIdx (OutboundLocalTrust.from_score_map sd) else l)
            lt) sd,
      sd) := by
  set LT1 := (List.range count).foldl
    (fun l fromIdx =>
      if ((SMap.find? l fromIdx).map OutboundLocalTrust.outbound_sum).getD 0 = 0
      then SMap.insert l fromIdx (OutboundLocalTrust.from_score_map sd) else l)
    lt with hLT1
  set RE := Et.find_reachable_peers LT1 sd with hRE
  set LT2 := LT1.filter fun p => decide (p.1 ∈ RE) with hLT2
  simp only [Et.pre_process, hfix]
  set LT1b := (List.range count).foldl
    (fun l fromIdx =>
      if ((SMap.find? l fromIdx).map OutboundLocalTrust.outbound_sum).getD 0 = 0
      then SMap.insert l fromIdx (OutboundLocalTrust.from_score_map sd) else l)
    LT2 with hLT1b
  rw [Prod.mk.injEq]
  refine ⟨?_, rfl⟩
  have hsLT1 : SMap.Sorted LT1 := by
    rw [hLT1]
    exact replFold_sorted sd lt hslt count
  have hsLT2 : SMap.Sorted LT2 := by
    rw [hLT2]
    exact sorted_filter _ _ hsLT1
  have hfind1 : ∀ k, SMap.find? LT1 k
      = if k < count then
          (if ((SMap.find? lt k).map OutboundLocalTrust.outbound_sum).getD 0 = 0
            then some (OutboundLocalTrust.from_score_map sd) else SMap.find? lt k)
        else SMap.find? lt k := by
    intro k
    rw [hLT1]
    exact replFold_find sd lt count k
  have hfind2 : ∀ k, SMap.find? LT2 k
      = if decide (k ∈ RE) then SMap.find? LT1 k else none := by
    intro k
    rw [hLT2]
    exact find?_filter_key (fun n => decide (n ∈ RE)) LT1 k
  have htgt1 : ∀ p ∈ LT1, ∀ tv ∈ (p : Nat × OutboundLocalTrust).2.outbound_trust_scores,
      tv.1 < count := by
    intro p hp tv htv
    rw [hLT1] at hp
    rcases replFold_mem sd lt p count hp with h | h
    · exact htgt p h tv htv
    · rw [h] at htv
      have htv2 : tv ∈ sd := htv
      exact hsdk tv.1 (List.mem_map_of_mem Prod.fst htv2)
  have hREc : ∀ n ∈ RE, n < count := by
    intro n hn
    rw [hRE] at hn
    exact reaches_lt_count LT1 (SMap.keyList sd) count hsdk htgt1 n
      ((find_reachable_peers_iff LT1 sd n).mp hn)
  have hfind1b : ∀ k, SMap.find? LT1b k
      = if k < count then
          (if ((SMap.find? LT2 k).map OutboundLocalTrust.outbound_sum).getD 0 = 0
            then some (OutboundLocalTrust.from_score_map sd) else SMap.find? LT2 k)
        else SMap.find? LT2 k := by
    intro k
    rw [hLT1b]
    exact replFold_find sd LT2 count k
  have hroweq : ∀ k ∈ RE, SMap.find? LT1b k = SMap.find? LT1 k := by
    intro k hk
    have hkc : k < count := hREc k hk
    have h2 : SMap.find? LT2 k = SMap.find? LT1 k := by
      rw [hfind2 k, if_pos (decide_eq_true hk)]
    rw [hfind1b k, if_pos hkc, h2]
    rw [hfind1 k, if_pos hkc]
    by_cases hz : ((SMap.find? lt k).map OutboundLocalTrust.outbound_sum).getD 0 = 0
    · rw [if_pos hz]
      by_cases hz2 : ((Option.map OutboundLocalTrust.outbound_sum
          (some (OutboundLocalTrust.from_score_map sd))).getD 0) = 0
      · rw [if_pos hz2]
      · rw [if_neg hz2]
    · rw [if_neg hz]
      cases hfl : SMap.find? lt k with
      | none =>
          exfalso
          apply hz
          rw [hfl]
          rfl
      | some r =>
          have hz3 : ¬ ((Option.map OutboundLocalTrust.outbound_sum (some r)).getD 0 = 0) := by
            intro hcc
            apply hz
            rw [hfl]
            exact hcc
          rw [if_neg hz3]
  have hriff : ∀ n, Et.Reaches LT1b (SMap.keyList sd) n
      ↔ Et.Reaches LT1 (SMap.keyList sd) n := by
    intro n
    constructor
    · intro h
      induction h with
      | base m hm => exact Et.Reaches.base m hm
      | step f t r v hRf hfind hmem hpos ihf =>
          have hfRE : f ∈ RE := by
            rw [hRE]
            exact (find_reachable_peers_iff LT1 sd f).mpr ihf
          rw [hroweq f hfRE] at hfind
          exact Et.Reaches.step f t r v ihf hfind hmem hpos
    · intro h
      induction h with
      | base m hm => exact Et.Reaches.base m hm
      | step f t r v hRf hfind hmem hpos ihf =>
          have hfRE : f ∈ RE := by
            rw [hRE]
            exact (find_reachable_peers_iff LT1 sd f).mpr hRf
          have heq := hroweq f hfRE
          rw [← heq] at hfind
          exact Et.Reaches.step f t r v ihf hfind hmem hpos
  have hre2 : ∀ n, (n ∈ Et.find_reachable_peers LT1b sd) ↔ n ∈ RE := by
    intro n
    rw [hRE]
    rw [find_reachable_peers_iff LT1b sd n, find_reachable_peers_iff LT1 sd n]
    exact hriff n
  apply sorted_ext
  · apply sorted_filter
    rw [hLT1b]
    exact replFold_sorted sd LT2 hsLT2 count
  · exact hsLT2
  · intro k
    rw [find?_filter_key (fun n => decide (n ∈ Et.find_reachable_peers LT1b sd)) LT1b k]
    by_cases hk : k ∈ RE
    · rw [if_pos (decide_eq_true ((hre2 k).mpr hk))]
      rw [hroweq k hk, hfind2 k, if_pos (decide_eq_true hk)]
    · rw [if_neg (fun hc => hk ((hre2 k).mp (of_decide_eq_true hc)))]
      rw [hfind2 k, if_neg (fun hc => hk (of_decide_eq_true hc))]

/-- C9: on inputs with the `BTreeMap`/`u64` shape the runners maintain (sorted
maps, seed keys and all edge targets below `count`), `pre_process` is
idempotent: running it on its own output changes neither the trust matrix nor
the seed vector. -/
theorem C9_pre_process_idempotent (lt : SMap OutboundLocalTrust) (seed : SMap ℚ)
    (count : Nat) (hslt : SMap.Sorted lt) (hsseed : SMap.Sorted seed)
    (hseedk : ∀ k ∈ SMap.keyList seed, k < count)
    (htgt : ∀ p ∈ lt, ∀ tv ∈ (p : Nat × OutboundLocalTrust).2.outbound_trust_scores,
      tv.1 < count) :
    Et.pre_process (Et.pre_process lt seed count).1 (Et.pre_process lt seed count).2 count
      = Et.pre_process lt seed count := by
  by_cases hsum : SMap.sumValues seed = 0
  · have hpp : Et.pre_process lt seed count
        = (((List.range count).foldl
            (fun l fromIdx =>
              if ((SMap.find? l fromIdx).map OutboundLocalTrust.outbound_sum).getD 0 = 0
              then SMap.insert l fromIdx (OutboundLocalTrust.from_score_map
                ((List.range count).foldl (fun s i => SMap.insert s i 1) seed)) else l)
            lt).filter fun p =>
          p.1 ∈ Et.find_reachable_peers
            ((List.range count).foldl
              (fun l fromIdx =>
                if ((SMap.find? l fromIdx).map OutboundLocalTrust.outbound_sum).getD 0 = 0
                then SMap.insert l fromIdx (OutboundLocalTrust.from_score_map
                  ((List.range count).foldl (fun s i => SMap.insert s i 1) seed)) else l)
              lt)
            ((List.range count).foldl (fun s i => SMap.insert s i 1) seed),
        (List.range count).foldl (fun s i => SMap.insert s i 1) seed) := by
      simp only [Et.pre_process, if_pos hsum]
    rw [hpp]
    refine pre_process_second lt
      ((List.range count).foldl (fun s i => SMap.insert s i 1) seed) count hslt
      (foldOnes_sorted seed hsseed count) ?_ htgt ?_
    · intro k hk
      by_contra hge
      have h1 := foldOnes_find_ge seed count k (by omega)
      have h2 : SMap.find? ((List.range count).foldl (fun s i => SMap.insert s i 1) seed) k
          ≠ none := by
        intro hc
        exact ((SMap.find?_eq_none_iff _ k).mp hc) hk
      rw [h1] at h2
      have h3 : k ∈ SMap.keyList seed := by
        by_contra hc
        exact h2 ((SMap.find?_eq_none_iff seed k).mpr hc)
      exact hge (hseedk k h3)
    · by_cases hs2 : SMap.sumValues
          ((List.range count).foldl (fun s i => SMap.insert s i 1) seed) = 0
      · rw [if_pos hs2]
        exact foldOnes_idem _ count (fun k hk => foldOnes_find_lt seed count k hk)
          (foldOnes_sorted seed hsseed count)
      · rw [if_neg hs2]
  · have hpp : Et.pre_process lt seed count
        = (((List.range count).foldl
            (fun l fromIdx =>
              if ((SMap.find? l fromIdx).map OutboundLocalTrust.outbound_sum).getD 0 = 0
              then SMap.insert l fromIdx (OutboundLocalTrust.from_score_map seed) else l)
            lt).filter fun p =>
          p.1 ∈ Et.find_reachable_peers
            ((List.range count).foldl
              (fun l fromIdx =>
                if ((SMap.find? l fromIdx).map OutboundLocalTrust.outbound_sum).getD 0 = 0
                then SMap.insert l fromIdx (OutboundLocalTrust.from_score_map seed) else l)
              lt) seed,
        seed) := by
      simp only [Et.pre_process, if_neg hsum]
    rw [hpp]
    exact pre_process_second lt seed count hslt hsseed hseedk htgt (by rw [if_neg hsum])

/-- C9 witness: the idempotence theorem applied to a concrete two-node instance
(one trust row 0 -> 1, seed at node 0). -/
theorem C9_witness :
    SMap.Sorted ([(0, ({ outbound_trust_scores := [(1, (1 : ℚ))], outbound_sum := 1 }
        : OutboundLocalTrust))] : SMap OutboundLocalTrust) ∧
    SMap.Sorted ([(0, (1 : ℚ))] : SMap ℚ) ∧
    (∀ k ∈ SMap.keyList ([(0, (1 : ℚ))] : SMap ℚ), k < 2) ∧
    (∀ p ∈ ([(0, ({ outbound_trust_scores := [(1, (1 : ℚ))], outbound_sum := 1 }
        : OutboundLocalTrust))] : SMap OutboundLocalTrust),
      ∀ tv ∈ (p : Nat × OutboundLocalTrust).2.outbound_trust_scores, tv.1 < 2) ∧
    Et.pre_process
        (Et.pre_process [(0, ({ outbound_trust_scores := [(1, (1 : ℚ))], outbound_sum := 1 } : OutboundLocalTrust))] [(0, (1 : ℚ))] 2).1
        (Et.pre_process [(0, ({ outbound_trust_scores := [(1, (1 : ℚ))], outbound_sum := 1 } : OutboundLocalTrust))] [(0, (1 : ℚ))] 2).2 2
      = Et.pre_process [(0, ({ outbound_trust_scores := [(1, (1 : ℚ))], outbound_sum := 1 } : OutboundLocalTrust))] [(0, (1 : ℚ))] 2 :=
  ⟨by decide, by decide, by decide, by decide,
    C9_pre_process_idempotent _ _ 2 (by decide) (by decide) (by decide) (by decide)⟩

end OpenrankTee

